import Mathlib

/-
Verification of sequelize-simple-cache (src/SequelizeSimpleCache.js).

The development shallowly embeds the cache engine: JS values are modelled by
the inductive `JVal`, the per-type entry store by association lists keyed by
the hash string, TTL/expiry semantics by `Expiry` (where the constructor
`Expiry.never` models the JS sentinel `false` and truthiness/coercion quirks
are translated explicitly), the cacheable-call path of `init` by `cachedFn`,
the eviction pass by `purge`, the association registration by
`registerAssociations`, and the breadth-first cascading clear by
`clear` / `closureList`.
-/

/-- JS values as they occur in call arguments and resolved data; functions are
identified by reference (`fn ref`). -/
inductive JVal where
  | jnull
  | undefVal
  | num (n : Int)
  | str (s : String)
  | fn (ref : Nat)
  | arr (elems : List JVal)
  | obj (fields : List (String × JVal))

/-- Modelled from the spec: part of the §4.1 KeyCodec serialization of
integers (the source delegates to `util.inspect`, which is Node stdlib and not
under src/); a deterministic, injective rendering with a sign tag and a unary
digit run. -/
def renderInt : Int → List Char
  | .ofNat m => 'p' :: List.replicate m '1'
  | .negSucc m => 'm' :: List.replicate m '1'

/-- Modelled from the spec: §4.1 KeyCodec rendering of strings, length-prefixed
so that arbitrary characters in the payload cannot be confused with delimiters. -/
def renderStr (s : String) : List Char :=
  's' :: (List.replicate s.length '1' ++ 'e' :: s.data)

mutual
/-- Modelled from the spec: `util.inspect(obj, {depth: Infinity, ...})` of
src/SequelizeSimpleCache.js line 91 is Node stdlib (not under src/); per §4.1
it must be a faithful deterministic serialization of the full value at
unbounded depth, with structurally equal values (functions compared by
reference) rendering identically and different values rendering differently.
Each constructor is rendered with a distinguishing tag and an `e` terminator. -/
def renderV : JVal → List Char
  | .jnull => ['z']
  | .undefVal => ['u']
  | .num n => 'n' :: (renderInt n ++ ['e'])
  | .str s => renderStr s
  | .fn r => 'f' :: (List.replicate r '1' ++ ['e'])
  | .arr l => 'a' :: (renderVList l ++ ['e'])
  | .obj fs => 'o' :: (renderFields fs ++ ['e'])

/-- Rendering of the element sequence of an array value. -/
def renderVList : List JVal → List Char
  | [] => []
  | v :: vs => renderV v ++ renderVList vs

/-- Rendering of the field sequence of an object value (key, then value). -/
def renderFields : List (String × JVal) → List Char
  | [] => []
  | (k, v) :: fs => renderStr k ++ (renderV v ++ renderFields fs)
end

/-- `SequelizeSimpleCache.key(obj)` (src/SequelizeSimpleCache.js lines 87-96):
renders the call descriptor object into a string. -/
def key (obj : JVal) : String :=
  ⟨renderV obj⟩

/-- Modelled from the spec: `crypto.createHash('md5')` (line 155) is Node
stdlib, not under src/; §4.1 requires a low-collision digest whose equality
the cache treats as equality of the original call signature, so it is
idealized as a collision-free (injective) digest, embedded as the identity. -/
def md5 (s : String) : String :=
  s

/-- The call descriptor `{ type, prop, args }` built at lines 150-154. -/
def callKey (type prop : String) (args : List JVal) : String :=
  key (.obj [("type", .str type), ("prop", .str prop), ("args", .arr args)])

/-- The store key `hash = md5(key)` of line 155. -/
def callHash (type prop : String) (args : List JVal) : String :=
  md5 (callKey type prop args)

/-- JS truthiness of a modelled value. -/
def jsTruthy : JVal → Bool
  | .jnull => false
  | .undefVal => false
  | .num n => n != 0
  | .str s => s != ""
  | .fn _ => true
  | .arr _ => true
  | .obj _ => true

/-- JS property read `v.transaction` as performed by the destructuring
`{ transaction }`: `undefined` on objects lacking the field and on
non-nullish primitives. -/
def getField (v : JVal) (name : String) : JVal :=
  match v with
  | .obj fields => ((fields.find? (fun p => p.1 == name)).map (fun p => p.2)).getD .undefVal
  | _ => .undefVal

/-- Left-to-right accumulation of `(acc, { transaction }) => acc || transaction`
over the argument list; destructuring `{ transaction }` of `null`/`undefined`
throws a TypeError (modelled as `Except.error ()`). -/
def withinTxnAux : Bool → List JVal → Except Unit Bool
  | acc, [] => .ok acc
  | _, .jnull :: _ => .error ()
  | _, .undefVal :: _ => .error ()
  | acc, a :: rest => withinTxnAux (acc || jsTruthy (getField a "transaction")) rest

/-- Line 143: `args.reduce((acc, { transaction }) => acc || transaction, false)`,
collapsed to the truthiness of its result as used by `if (withinTxn)`. -/
def withinTxn (args : List JVal) : Except Unit Bool :=
  withinTxnAux false args

/-- The `expires` field of a cache entry: the JS sentinel `false`
(constructor `never`) or a millisecond timestamp. -/
inductive Expiry where
  | never
  | ts (t : Nat)
deriving DecidableEq

/-- A configured ttl: the JS sentinel `false` (constructor `never`) or a
number of seconds. -/
inductive TTL where
  | never
  | secs (n : Int)
deriving DecidableEq

/-- JS `ttl > 0` (with `false > 0` being false). -/
def ttlPos : TTL → Bool
  | .never => false
  | .secs n => 0 < n

/-- JS `ttl * 1000` for a positive ttl. -/
def ttlMs : TTL → Nat
  | .never => 0
  | .secs n => n.toNat * 1000

/-- Line 177: `expires = ttl > 0 ? Date.now() + ttl * 1000 : false`. -/
def expiresOf (ttl : TTL) (now : Nat) : Expiry :=
  if ttlPos ttl then .ts (now + ttlMs ttl) else .never

/-- A cache entry `{ data, expires }` (lines 178-181). -/
structure Entry where
  data : JVal
  expires : Expiry

/-- A per-type entry store: the `Map` from hash to entry, as an ordered
association list (JS `Map` preserves insertion order). -/
abbrev Store : Type := List (String × Entry)

/-- Line 160: `!expires || expires > Date.now()` — note that a numeric
`expires` equal to `0` is falsy in JS, hence counted as live. -/
def jsLive (e : Expiry) (now : Nat) : Bool :=
  match e with
  | .never => true
  | .ts t => t == 0 || now < t

/-- Line 253: `expires && expires <= now` — a numeric `expires` equal to `0`
is falsy, hence not treated as expired. -/
def jsExpired (e : Expiry) (now : Nat) : Bool :=
  match e with
  | .never => false
  | .ts t => t != 0 && decide (t ≤ now)

/-- JS numeric coercion of an `expires` value as used by the comparison
`expires < oldest.expires` at line 259: `false` coerces to `0`. -/
def expNum : Expiry → Nat
  | .never => 0
  | .ts t => t

/-- `Map.set` semantics on the association-list model: replace the value at
an existing key in place, else append. -/
def mapSet {β : Type} (m : List (String × β)) (k : String) (v : β) : List (String × β) :=
  if m.any (fun p => p.1 == k) then m.map (fun p => if p.1 == k then (k, v) else p)
  else m ++ [(k, v)]

/-- `Map.get` semantics on the association-list model. -/
def mapGet {β : Type} (m : List (String × β)) (k : String) : Option β :=
  (m.find? (fun p => p.1 == k)).map (fun p => p.2)

/-- Lines 156-160 as a single observation: the lookup yields a live hit. -/
def hitLive (store : Store) (hash : String) (now : Nat) : Bool :=
  match store.find? (fun p => p.1 == hash) with
  | some (_, item) => jsLive item.expires now
  | none => false

/-- Result of the single `forEach` pass of `purge` (lines 252-265): the
surviving entries, the tracked oldest candidate `{ hash, expires }`, and the
number of purge events emitted for expired deletions. -/
structure ScanOut where
  kept : Store
  oldest : Option (String × Expiry)
  events : Nat

/-- The `forEach` pass of `purge` (lines 252-265): expired entries (truthy
`expires ≤ now`) are deleted as encountered; every other entry updates the
tracked oldest candidate via `!oldest || expires < oldest.expires` (the
comparison coercing `false` to `0`). -/
def purgeScan (now : Nat) : Store → Option (String × Expiry) → ScanOut
  | [], oldest => ⟨[], oldest, 0⟩
  | (h, e) :: rest, oldest =>
    if jsExpired e.expires now then
      let r := purgeScan now rest oldest
      ⟨r.kept, r.oldest, r.events + 1⟩
    else
      let oldest' :=
        match oldest with
        | none => some (h, e.expires)
        | some o => if expNum e.expires < expNum o.2 then some (h, e.expires) else some o
      let r := purgeScan now rest oldest'
      ⟨(h, e) :: r.kept, r.oldest, r.events⟩

/-- The body of `purge` for one entity type (lines 248-271): run the scan,
then, if still over the limit and an oldest candidate was tracked, delete
that one entry (one more purge event). Returns the resulting store and the
number of purge events. -/
def purge (store : Store) (now : Nat) (limit : Nat) : Store × Nat :=
  let r := purgeScan now store none
  match r.oldest with
  | some o =>
    if limit < r.kept.length then (r.kept.eraseP (fun p => p.1 == o.1), r.events + 1)
    else (r.kept, r.events)
  | none => (r.kept, r.events)

/-- The mutable state touched by one cacheable call: this type's store and
the `stats` counters (lines 74-79). -/
structure FnState where
  store : Store
  hit : Nat
  miss : Nat
  load : Nat
  purged : Nat

/-- Observable outcome of one cacheable call: the resolved value handed to
the caller, the state afterwards, and whether `target[prop](...args)` was
invoked. -/
structure FnOut where
  result : JVal
  state : FnState
  invoked : Bool

/-- Lines 169-192, the miss continuation: log the miss, invoke the
underlying operation, and when it resolves store the value (unless
`undefined`/`null`) with `expires = ttl > 0 ? now + ttl*1000 : false`,
log the load, and purge if the store went over the limit. -/
def missPath (hash : String) (now : Nat) (ttl : TTL) (limit : Nat)
    (underlying : JVal) (s : FnState) : FnOut :=
  let s1 : FnState := { s with miss := s.miss + 1 }
  match underlying with
  | .undefVal => ⟨underlying, s1, true⟩
  | .jnull => ⟨underlying, s1, true⟩
  | _ =>
    let store2 := mapSet s1.store hash ⟨underlying, expiresOf ttl now⟩
    let s2 : FnState := { s1 with store := store2, load := s1.load + 1 }
    let s3 : FnState :=
      if limit < store2.length then
        let pr := purge store2 now limit
        { s2 with store := pr.1, purged := s2.purged + pr.2 }
      else s2
    ⟨underlying, s3, true⟩

/-- The cacheable-call closure `fn` built at lines 142-193 of `init`, for a
call whose underlying operation resolves to `underlying`: transaction
bypass, key/hash derivation, live-hit lookup, and the miss path. A thrown
TypeError from the argument destructuring is `Except.error ()`. -/
def cachedFn (type prop : String) (args : List JVal) (now : Nat) (ttl : TTL)
    (limit : Nat) (underlying : JVal) (s : FnState) : Except Unit FnOut :=
  match withinTxn args with
  | .error e => .error e
  | .ok true => .ok ⟨underlying, s, true⟩
  | .ok false =>
    let hash := callHash type prop args
    match s.store.find? (fun p => p.1 == hash) with
    | some (_, item) =>
      if jsLive item.expires now then
        .ok ⟨item.data, { s with hit := s.hit + 1 }, false⟩
      else .ok (missPath hash now ttl limit underlying s)
    | none => .ok (missPath hash now ttl limit underlying s)

/-- The `associations` map (line 73): entity-type name to the ordered list of
associated entity-type names. -/
abbrev AssocMap : Type := List (String × List String)

/-- `this.associations.get(type)` followed by the existence check of
line 222: missing types have no neighbours. -/
def getAssoc (assoc : AssocMap) (t : String) : List String :=
  (mapGet assoc t).getD []

/-- One iteration of `_addReverseAssociations` (lines 327-334) for one
associated model `b`: if `b` has no adjacency list, create an empty one
(after which `get(b)` is that empty list, by `Map` semantics); then append
the declaring model's name unless already present. -/
def addReverseStep (name : String) (acc : AssocMap) (b : String) : AssocMap :=
  match mapGet acc b with
  | some cur => if cur.contains name then acc else mapSet acc b (cur ++ [name])
  | none => mapSet (mapSet acc b []) b ([] ++ [name])

/-- `_addReverseAssociations` (lines 326-335): the step above folded over the
associated models, left to right. -/
def addReverseAssociations (m : AssocMap) (name : String) (targets : List String) : AssocMap :=
  targets.foldl (addReverseStep name) m

/-- `_registerAssociations` (lines 309-320) given the extracted associated
model names: bail out on an empty list, else `_addAssociations` (which
*sets* — i.e. replaces — the declaring model's adjacency list, line 323)
followed by `_addReverseAssociations`. -/
def registerAssociations (m : AssocMap) (name : String) (targets : List String) : AssocMap :=
  if targets.isEmpty then m
  else addReverseAssociations (mapSet m name targets) name targets

/-- One pop of the BFS of `clear` (lines 213-229), fuelled so that the
recursion is structural; `bfsFuel` below always suffices, so the fuel-out
branch is never reached from `closureList`. A popped unvisited node is added
to the visited set and its not-yet-visited neighbours are enqueued. -/
def bfsAux (assoc : AssocMap) : Nat → List String → List String → List String
  | _, [], visited => visited
  | 0, _ :: _, visited => visited
  | fuel + 1, t :: rest, visited =>
    if visited.contains t then bfsAux assoc fuel rest visited
    else
      bfsAux assoc fuel
        (rest ++ (getAssoc assoc t).filter (fun a => !((visited ++ [t]).contains a)))
        (visited ++ [t])

/-- All node names the BFS can ever touch: the roots, the map's keys and
every name in an adjacency list. -/
def assocUniverse (assoc : AssocMap) (roots : List String) : List String :=
  roots ++ assoc.map (fun p => p.1) ++ (assoc.map (fun p => p.2)).flatten

/-- An upper bound on the length of any adjacency list. -/
def maxAdj (assoc : AssocMap) : Nat :=
  (assoc.map (fun p => p.2.length)).foldr max 0

/-- Fuel sufficient for the BFS to drain its queue (proved below). -/
def bfsFuel (assoc : AssocMap) (roots : List String) : Nat :=
  (assocUniverse assoc roots).length * (maxAdj assoc + 1) + roots.length

/-- The set `typesToClear` computed by the BFS of `clear` (lines 209-229), in
visit order. -/
def closureList (assoc : AssocMap) (roots : List String) : List String :=
  bfsAux assoc (bfsFuel assoc roots) roots []

/-- The caches of all entity types, keyed by type name (`this.cache`,
line 72). -/
abbrev CacheMap : Type := List (String × Store)

/-- `clear(...modelNames)` (lines 207-236): no names means every cached
type; the closure of the roots is computed and every store whose type is in
the closure is emptied. -/
def clear (assoc : AssocMap) (cache : CacheMap) (modelNames : List String) : CacheMap :=
  let types := if modelNames.isEmpty then cache.map (fun p => p.1) else modelNames
  let toClear := closureList assoc types
  cache.map (fun p => if toClear.contains p.1 then (p.1, ([] : Store)) else p)

/-- Lines 135-140: accessing a member listed in `methodsUpdate` clears this
type's cache closure when `clearOnUpdate` is set (the member itself is
returned unchanged). -/
def accessUpdateMember (clearOnUpdate : Bool) (assoc : AssocMap) (cache : CacheMap)
    (type : String) : CacheMap :=
  if clearOnUpdate then clear assoc cache [type] else cache

/-- Reachability in the association graph from a set of roots, following
adjacency-list edges; the specification's notion "type reachable from the
given roots via association edges (including the roots themselves)". -/
inductive Reach (assoc : AssocMap) (roots : List String) : String → Prop
  | root {x : String} : x ∈ roots → Reach assoc roots x
  | step {x y : String} : Reach assoc roots x → y ∈ getAssoc assoc x → Reach assoc roots y

/-- Three-node association cycle A↔B↔C↔A. -/
def cycleAssoc : AssocMap :=
  [("A", ["B", "C"]), ("B", ["A", "C"]), ("C", ["B", "A"])]

/-- Concrete store holding one timestamped and one never-expiring entry. -/
def neverStore : Store :=
  [("h1", ⟨.num 1, .ts 5⟩), ("h2", ⟨.num 2, .never⟩)]

/-- Concrete store with three fresh timestamped entries. -/
def freshStore : Store :=
  [("k1", ⟨.num 1, .ts 30⟩), ("k2", ⟨.num 2, .ts 10⟩), ("k3", ⟨.num 3, .ts 20⟩)]

/-- Concrete cache state with stores for types A, B and C. -/
def cacheABC : CacheMap :=
  [("A", [("ha", ⟨.num 1, .never⟩)]),
   ("B", [("hb", ⟨.num 2, .never⟩)]),
   ("C", [("hc", ⟨.num 3, .never⟩)])]

/-- Association state after registering the single relation A→[B]. -/
def assocAB : AssocMap :=
  registerAssociations [] "A" ["B"]

/-- Concrete store holding a never-expiring entry under the hash of the call
`User.findOne()`. -/
def hitStore : Store :=
  [(callHash "User" "findOne" [], ⟨.num 7, .never⟩)]

/-- Call state whose store is `hitStore` and whose counters are all zero. -/
def hitState : FnState :=
  ⟨hitStore, 0, 0, 0, 0⟩

/-- Call state with an empty store and all counters zero. -/
def emptyState : FnState :=
  ⟨[], 0, 0, 0, 0⟩

/-- A unary digit run followed by the terminator determines its length and
the remainder. -/
lemma replicate_one_e_cancel : ∀ (m n : Nat) (r₁ r₂ : List Char),
    List.replicate m '1' ++ 'e' :: r₁ = List.replicate n '1' ++ 'e' :: r₂ → m = n ∧ r₁ = r₂ := by
  intro m
  induction m with
  | zero =>
    intro n r₁ r₂ h
    cases n with
    | zero => simpa using h
    | succ k => simp [List.replicate_succ] at h
  | succ k ih =>
    intro n r₁ r₂ h
    cases n with
    | zero => simp [List.replicate_succ] at h
    | succ j =>
      simp only [List.replicate_succ, List.cons_append, List.cons.injEq] at h
      obtain ⟨hm, hr⟩ := ih j r₁ r₂ h.2
      exact ⟨by omega, hr⟩

/-- A rendered string determines the string and the remainder. -/
lemma renderStr_cancel (s₁ s₂ : String) (r₁ r₂ : List Char)
    (h : renderStr s₁ ++ r₁ = renderStr s₂ ++ r₂) : s₁ = s₂ ∧ r₁ = r₂ := by
  simp only [renderStr, List.cons_append, List.cons.injEq, List.append_assoc] at h
  obtain ⟨hlen, hdat⟩ := replicate_one_e_cancel _ _ _ _ h.2
  have hl : s₁.data.length = s₂.data.length := hlen
  obtain ⟨hd, hr⟩ := List.append_inj hdat hl
  have hs : s₁ = s₂ := by
    cases s₁; cases s₂; exact congrArg String.mk hd
  exact ⟨hs, hr⟩

/-- Every rendered value starts with a constructor tag, never with the
terminator. -/
lemma renderV_head (v : JVal) : ∃ c r, renderV v = c :: r ∧ c ≠ 'e' := by
  cases v with
  | jnull => exact ⟨'z', _, rfl, by decide⟩
  | undefVal => exact ⟨'u', _, rfl, by decide⟩
  | num n => exact ⟨'n', _, rfl, by decide⟩
  | str s => exact ⟨'s', _, rfl, by decide⟩
  | fn r => exact ⟨'f', _, rfl, by decide⟩
  | arr l => exact ⟨'a', _, rfl, by decide⟩
  | obj fs => exact ⟨'o', _, rfl, by decide⟩

/-- A rendered integer followed by the terminator determines the integer and
the remainder. -/
lemma renderInt_e_cancel (n₁ n₂ : Int) (r₁ r₂ : List Char)
    (h : renderInt n₁ ++ 'e' :: r₁ = renderInt n₂ ++ 'e' :: r₂) : n₁ = n₂ ∧ r₁ = r₂ := by
  cases n₁ <;> cases n₂ <;>
    simp only [renderInt, List.cons_append, List.cons.injEq] at h
  case ofNat.ofNat m₁ m₂ =>
    obtain ⟨hm, hr⟩ := replicate_one_e_cancel _ _ _ _ h.2
    exact ⟨by simp [hm], hr⟩
  case ofNat.negSucc m₁ m₂ => exact absurd h.1 (by decide)
  case negSucc.ofNat m₁ m₂ => exact absurd h.1 (by decide)
  case negSucc.negSucc m₁ m₂ =>
    obtain ⟨hm, hr⟩ := replicate_one_e_cancel _ _ _ _ h.2
    exact ⟨by simp [hm], hr⟩

mutual
/-- The rendering is a prefix code: a rendered value determines the value and
the remainder of the character stream. -/
theorem renderV_cancel : ∀ (v₁ v₂ : JVal) (r₁ r₂ : List Char),
    renderV v₁ ++ r₁ = renderV v₂ ++ r₂ → v₁ = v₂ ∧ r₁ = r₂
  | v₁, v₂, r₁, r₂, h => by
    cases v₁ <;> cases v₂
    case jnull.jnull => exact ⟨rfl, by simpa [renderV] using h⟩
    case undefVal.undefVal => exact ⟨rfl, by simpa [renderV] using h⟩
    case num.num n₁ n₂ =>
      simp only [renderV, List.cons_append, List.cons.injEq, List.append_assoc,
        List.singleton_append] at h
      obtain ⟨hn, hr⟩ := renderInt_e_cancel n₁ n₂ r₁ r₂ (by simpa using h.2)
      exact ⟨by rw [hn], hr⟩
    case str.str s₁ s₂ =>
      simp only [renderV] at h
      obtain ⟨hs, hr⟩ := renderStr_cancel s₁ s₂ r₁ r₂ h
      exact ⟨by rw [hs], hr⟩
    case fn.fn m₁ m₂ =>
      simp only [renderV, List.cons_append, List.cons.injEq, List.append_assoc,
        List.singleton_append] at h
      obtain ⟨hm, hr⟩ := replicate_one_e_cancel _ _ _ _ (by simpa using h.2)
      exact ⟨by rw [hm], hr⟩
    case arr.arr l₁ l₂ =>
      simp only [renderV, List.cons_append, List.cons.injEq, List.append_assoc,
        List.singleton_append] at h
      obtain ⟨hl, hr⟩ := renderVList_cancel l₁ l₂ r₁ r₂ (by simpa using h.2)
      exact ⟨by rw [hl], hr⟩
    case obj.obj fs₁ fs₂ =>
      simp only [renderV, List.cons_append, List.cons.injEq, List.append_assoc,
        List.singleton_append] at h
      obtain ⟨hf, hr⟩ := renderFields_cancel fs₁ fs₂ r₁ r₂ (by simpa using h.2)
      exact ⟨by rw [hf], hr⟩
    all_goals
      simp only [renderV, renderStr, List.cons_append, List.singleton_append,
        List.cons.injEq] at h
      exact absurd h.1 (by decide)

/-- A rendered element sequence followed by the terminator determines the
sequence and the remainder. -/
theorem renderVList_cancel : ∀ (l₁ l₂ : List JVal) (r₁ r₂ : List Char),
    renderVList l₁ ++ 'e' :: r₁ = renderVList l₂ ++ 'e' :: r₂ → l₁ = l₂ ∧ r₁ = r₂
  | [], [], r₁, r₂, h => ⟨rfl, by simpa [renderVList] using h⟩
  | [], v :: vs, r₁, r₂, h => by
    exfalso
    obtain ⟨c, r, hv, hc⟩ := renderV_head v
    simp only [renderVList, hv, List.nil_append, List.cons_append, List.append_assoc,
      List.cons.injEq] at h
    exact hc h.1.symm
  | v :: vs, [], r₁, r₂, h => by
    exfalso
    obtain ⟨c, r, hv, hc⟩ := renderV_head v
    simp only [renderVList, hv, List.nil_append, List.cons_append, List.append_assoc,
      List.cons.injEq] at h
    exact hc h.1
  | v₁ :: vs₁, v₂ :: vs₂, r₁, r₂, h => by
    simp only [renderVList, List.append_assoc] at h
    obtain ⟨hv, h'⟩ := renderV_cancel v₁ v₂ _ _ h
    obtain ⟨hl, hr⟩ := renderVList_cancel vs₁ vs₂ r₁ r₂ h'
    exact ⟨by rw [hv, hl], hr⟩

/-- A rendered field sequence followed by the terminator determines the
sequence and the remainder. -/
theorem renderFields_cancel : ∀ (fs₁ fs₂ : List (String × JVal)) (r₁ r₂ : List Char),
    renderFields fs₁ ++ 'e' :: r₁ = renderFields fs₂ ++ 'e' :: r₂ → fs₁ = fs₂ ∧ r₁ = r₂
  | [], [], r₁, r₂, h => ⟨rfl, by simpa [renderFields] using h⟩
  | [], (k, v) :: fs, r₁, r₂, h => by
    exfalso
    simp only [renderFields, renderStr, List.nil_append, List.cons_append, List.append_assoc,
      List.cons.injEq] at h
    exact absurd h.1 (by decide)
  | (k, v) :: fs, [], r₁, r₂, h => by
    exfalso
    simp only [renderFields, renderStr, List.nil_append, List.cons_append, List.append_assoc,
      List.cons.injEq] at h
    exact absurd h.1 (by decide)
  | (k₁, v₁) :: fs₁, (k₂, v₂) :: fs₂, r₁, r₂, h => by
    simp only [renderFields, List.append_assoc] at h
    obtain ⟨hk, h'⟩ := renderStr_cancel k₁ k₂ _ _ h
    obtain ⟨hv, h''⟩ := renderV_cancel v₁ v₂ _ _ h'
    obtain ⟨hf, hr⟩ := renderFields_cancel fs₁ fs₂ r₁ r₂ h''
    exact ⟨by rw [hk, hv, hf], hr⟩
end

/-- The rendering is injective on values. -/
theorem renderV_inj (v₁ v₂ : JVal) (h : renderV v₁ = renderV v₂) : v₁ = v₂ :=
  (renderV_cancel v₁ v₂ [] [] (by simpa using h)).1

/-- C9: Key derivation is deterministic: for every type, operation, and
argument list, two calls with structurally identical arguments (including
functions passed by the same reference) produce identical derived strings and
therefore identical hashes, while argument lists differing in element order
or value produce different derived strings. -/
theorem c9_key_derivation_deterministic_injective :
    ∀ (type prop : String) (args₁ args₂ : List JVal),
      (callKey type prop args₁ = callKey type prop args₂ ↔ args₁ = args₂)
      ∧ (callHash type prop args₁ = callHash type prop args₂ ↔ args₁ = args₂) := by
  intro type prop a₁ a₂
  have base : callKey type prop a₁ = callKey type prop a₂ ↔ a₁ = a₂ := by
    constructor
    · intro h
      have hl : renderV (.obj [("type", .str type), ("prop", .str prop), ("args", .arr a₁)])
          = renderV (.obj [("type", .str type), ("prop", .str prop), ("args", .arr a₂)]) := by
        have := congrArg String.data h
        simpa [callKey, key] using this
      have hv := renderV_inj _ _ hl
      simp only [JVal.obj.injEq, List.cons.injEq, Prod.mk.injEq, JVal.arr.injEq,
        and_true, true_and] at hv
      exact hv
    · intro h
      rw [h]
  refine ⟨base, ?_⟩
  simpa [callHash, md5] using base

/-- Concrete instance of C9: swapping two argument values changes the derived
key string. -/
theorem c9_witness :
    callKey "User" "findOne" [.num 1, .num 2] ≠ callKey "User" "findOne" [.num 2, .num 1] := by
  intro h
  have := (c9_key_derivation_deterministic_injective "User" "findOne"
    [.num 1, .num 2] [.num 2, .num 1]).1.mp h
  simp at this

/-- If some argument is `null` or `undefined`, the transaction-marker reduce
throws, whatever the accumulator. -/
lemma withinTxnAux_error : ∀ (args : List JVal) (acc : Bool),
    (∃ a ∈ args, a = .jnull ∨ a = .undefVal) → withinTxnAux acc args = .error () := by
  intro args
  induction args with
  | nil =>
    intro acc h
    obtain ⟨a, ha, _⟩ := h
    exact absurd ha (List.not_mem_nil a)
  | cons x rest ih =>
    intro acc h
    cases x with
    | jnull => rfl
    | undefVal => rfl
    | num n =>
      obtain ⟨a, ha, hn⟩ := h
      rcases List.mem_cons.mp ha with h1 | h1
      · rcases hn with h2 | h2 <;> simp [h1] at h2
      · exact ih _ ⟨a, h1, hn⟩
    | str s =>
      obtain ⟨a, ha, hn⟩ := h
      rcases List.mem_cons.mp ha with h1 | h1
      · rcases hn with h2 | h2 <;> simp [h1] at h2
      · exact ih _ ⟨a, h1, hn⟩
    | fn r =>
      obtain ⟨a, ha, hn⟩ := h
      rcases List.mem_cons.mp ha with h1 | h1
      · rcases hn with h2 | h2 <;> simp [h1] at h2
      · exact ih _ ⟨a, h1, hn⟩
    | arr l =>
      obtain ⟨a, ha, hn⟩ := h
      rcases List.mem_cons.mp ha with h1 | h1
      · rcases hn with h2 | h2 <;> simp [h1] at h2
      · exact ih _ ⟨a, h1, hn⟩
    | obj fs =>
      obtain ⟨a, ha, hn⟩ := h
      rcases List.mem_cons.mp ha with h1 | h1
      · rcases hn with h2 | h2 <;> simp [h1] at h2
      · exact ih _ ⟨a, h1, hn⟩

/-- C7: For every cacheable call in which some argument carries an active
transaction marker, the cache is bypassed entirely: no lookup is performed,
nothing is stored, the state is untouched, and the underlying operation's
result is returned directly to the caller. -/
theorem c7_transaction_bypass (type prop : String) (args : List JVal) (now : Nat)
    (ttl : TTL) (limit : Nat) (underlying : JVal) (s : FnState)
    (h : withinTxn args = .ok true) :
    cachedFn type prop args now ttl limit underlying s = .ok ⟨underlying, s, true⟩ := by
  simp [cachedFn, h]

/-- Concrete instance of C7: an argument with a truthy `transaction` property
bypasses the cache. -/
theorem c7_witness :
    cachedFn "User" "findOne" [.obj [("transaction", .num 1)]] 0 .never 50 (.num 7) hitState
      = .ok ⟨.num 7, hitState, true⟩ :=
  c7_transaction_bypass "User" "findOne" [.obj [("transaction", .num 1)]] 0 .never 50
    (.num 7) hitState rfl

/-- C10: For every cacheable call on a configured model in which some argument
is `null` or `undefined`, the transaction-marker check throws before any
cache lookup or underlying-operation invocation occurs, so the call fails
with an error (for every store state and every underlying result) rather
than being served from or populating the cache. -/
theorem c10_nullish_argument_throws (type prop : String) (args : List JVal) (now : Nat)
    (ttl : TTL) (limit : Nat) (underlying : JVal) (s : FnState)
    (h : ∃ a ∈ args, a = .jnull ∨ a = .undefVal) :
    cachedFn type prop args now ttl limit underlying s = .error () := by
  simp [cachedFn, withinTxn, withinTxnAux_error args false h]

/-- Concrete instance of C10: a `null` argument makes the call throw even
though a live entry is present in the store. -/
theorem c10_witness :
    cachedFn "User" "findOne" [.jnull] 0 .never 50 (.num 7) hitState = .error () :=
  c10_nullish_argument_throws "User" "findOne" [.jnull] 0 .never 50 (.num 7) hitState
    ⟨.jnull, List.mem_singleton.mpr rfl, Or.inl rfl⟩

/-- On the miss continuation, whatever the resolved value: the miss counter
increments, the hit counter is untouched, the underlying operation is
invoked, and the resolved value is returned. -/
lemma missPath_facts (hash : String) (now : Nat) (ttl : TTL) (limit : Nat)
    (underlying : JVal) (s : FnState) :
    (missPath hash now ttl limit underlying s).state.miss = s.miss + 1
    ∧ (missPath hash now ttl limit underlying s).state.hit = s.hit
    ∧ (missPath hash now ttl limit underlying s).invoked = true
    ∧ (missPath hash now ttl limit underlying s).result = underlying := by
  cases underlying <;> simp [missPath] <;> split <;> simp

/-- C1: For every cacheable call on a configured model (no transaction
bypass), the lookup is a hit iff an entry for the call's hash exists and its
expiry is the `false` sentinel or strictly greater than the current time; on
such a live hit the cached data is returned, the underlying operation is not
invoked, the hit counter increments and the miss counter does not; otherwise
— even when a stale entry is still physically present — the call behaves
exactly as if the entry were absent: the miss path runs, the miss counter
increments and the hit counter does not. Nonzero timestamps reflect that
stored expiries are always `now + ttl*1000 > 0`. -/
theorem c1_live_hit_semantics (type prop : String) (args : List JVal) (now : Nat)
    (ttl : TTL) (limit : Nat) (underlying : JVal) (s : FnState)
    (hargs : withinTxn args = .ok false)
    (hnz : ∀ p ∈ s.store, p.2.expires ≠ .ts 0) :
    (∀ h item, s.store.find? (fun p => p.1 == callHash type prop args) = some (h, item) →
        (item.expires = .never ∨ ∃ t, item.expires = .ts t ∧ now < t) →
        cachedFn type prop args now ttl limit underlying s
          = .ok ⟨item.data, { s with hit := s.hit + 1 }, false⟩)
    ∧ (∀ h item, s.store.find? (fun p => p.1 == callHash type prop args) = some (h, item) →
        item.expires ≠ .never → (∀ t, item.expires = .ts t → t ≤ now) →
        cachedFn type prop args now ttl limit underlying s
          = .ok (missPath (callHash type prop args) now ttl limit underlying s))
    ∧ (s.store.find? (fun p => p.1 == callHash type prop args) = none →
        cachedFn type prop args now ttl limit underlying s
          = .ok (missPath (callHash type prop args) now ttl limit underlying s))
    ∧ (missPath (callHash type prop args) now ttl limit underlying s).state.miss = s.miss + 1
    ∧ (missPath (callHash type prop args) now ttl limit underlying s).state.hit = s.hit
    ∧ (missPath (callHash type prop args) now ttl limit underlying s).invoked = true := by
  refine ⟨?_, ?_, ?_, (missPath_facts _ _ _ _ _ _).1, (missPath_facts _ _ _ _ _ _).2.1,
    (missPath_facts _ _ _ _ _ _).2.2.1⟩
  · intro h item hfind hlive
    have hjs : jsLive item.expires now = true := by
      rcases hlive with h1 | ⟨t, h1, h2⟩
      · simp [jsLive, h1]
      · simp [jsLive, h1, h2]
    simp [cachedFn, hargs, hfind, hjs]
  · intro h item hfind hne hle
    have hmem : (h, item) ∈ s.store := List.mem_of_find?_eq_some hfind
    have hjs : jsLive item.expires now = false := by
      cases he : item.expires with
      | never => exact absurd he hne
      | ts t =>
        have h0 : t ≠ 0 := by
          intro h0
          exact hnz (h, item) hmem (by rw [he, h0])
        have hlt : t ≤ now := hle t he
        simp [jsLive]
        omega
    simp [cachedFn, hargs, hfind, hjs]
  · intro hfind
    simp [cachedFn, hargs, hfind]

/-- Concrete instance of C1: with a live never-expiring entry stored for the
hash of `User.findOne()`, the call returns the cached data, does not invoke
the underlying operation, and increments only the hit counter. -/
theorem c1_witness :
    cachedFn "User" "findOne" [] 0 .never 50 (.num 5) hitState
      = .ok ⟨(Entry.mk (.num 7) .never).data, { hitState with hit := hitState.hit + 1 }, false⟩ :=
  (c1_live_hit_semantics "User" "findOne" [] 0 .never 50 (.num 5) hitState rfl
    (by decide)).1
    (callHash "User" "findOne" []) (Entry.mk (.num 7) .never) rfl (Or.inl rfl)

/-- Replacing the value at a present key makes that key map to the new value. -/
lemma find?_map_replace {β : Type} (m : List (String × β)) (k : String) (v : β)
    (h : m.any (fun p => p.1 == k) = true) :
    (m.map (fun p => if p.1 == k then (k, v) else p)).find? (fun p => p.1 == k)
      = some (k, v) := by
  induction m with
  | nil => simp at h
  | cons p rest ih =>
    rcases hp : (p.1 == k) with _ | _
    · have h' : rest.any (fun p => p.1 == k) = true := by
        simpa [List.any_cons, hp] using h
      have e1 : (if p.1 == k then (k, v) else p) = p := by simp [hp]
      rw [List.map_cons, e1, List.find?_cons_of_neg]
      · exact ih h'
      · simp [hp]
    · have e1 : (if p.1 == k then (k, v) else p) = (k, v) := by simp [hp]
      rw [List.map_cons, e1, List.find?_cons_of_pos]
      simp

/-- `Map.set` followed by `Map.get` on the same key yields the new value. -/
lemma mapGet_mapSet_self {β : Type} (m : List (String × β)) (k : String) (v : β) :
    mapGet (mapSet m k v) k = some v := by
  unfold mapSet
  by_cases h : m.any (fun p => p.1 == k) = true
  · rw [if_pos h]
    unfold mapGet
    rw [find?_map_replace m k v h]
    rfl
  · have h' : m.find? (fun p => p.1 == k) = none := by
      rw [List.find?_eq_none]
      intro x hx hpx
      exact h (List.any_eq_true.mpr ⟨x, hx, hpx⟩)
    rw [if_neg h]
    unfold mapGet
    rw [List.find?_append, h']
    simp

/-- C8: On a cacheable miss, the resolved value is stored in the cache iff it
is neither `undefined` nor `null`; when it is stored its expiry is
`now + ttl*1000` when `ttl > 0` and the never-expiring sentinel `false`
otherwise, the load counter increments, and the store then goes through the
size-limit purge check; the resolved value is returned to the caller in all
cases. -/
theorem c8_store_iff_nonnull (type prop : String) (args : List JVal) (now : Nat)
    (ttl : TTL) (limit : Nat) (underlying : JVal) (s : FnState)
    (hargs : withinTxn args = .ok false)
    (hmiss : hitLive s.store (callHash type prop args) now = false) :
    cachedFn type prop args now ttl limit underlying s
      = .ok (missPath (callHash type prop args) now ttl limit underlying s)
    ∧ (missPath (callHash type prop args) now ttl limit underlying s).result = underlying
    ∧ (underlying = .jnull ∨ underlying = .undefVal →
        (missPath (callHash type prop args) now ttl limit underlying s).state.store = s.store
        ∧ (missPath (callHash type prop args) now ttl limit underlying s).state.load = s.load)
    ∧ (underlying ≠ .jnull → underlying ≠ .undefVal →
        (missPath (callHash type prop args) now ttl limit underlying s).state.load = s.load + 1
        ∧ mapGet (mapSet s.store (callHash type prop args) ⟨underlying, expiresOf ttl now⟩)
            (callHash type prop args) = some ⟨underlying, expiresOf ttl now⟩
        ∧ (missPath (callHash type prop args) now ttl limit underlying s).state.store
            = (if limit <
                  (mapSet s.store (callHash type prop args)
                    ⟨underlying, expiresOf ttl now⟩).length
               then (purge
                      (mapSet s.store (callHash type prop args)
                        ⟨underlying, expiresOf ttl now⟩) now limit).1
               else mapSet s.store (callHash type prop args) ⟨underlying, expiresOf ttl now⟩))
    ∧ (ttlPos ttl = true → expiresOf ttl now = .ts (now + ttlMs ttl))
    ∧ (ttlPos ttl = false → expiresOf ttl now = .never) := by
  refine ⟨?_, (missPath_facts _ _ _ _ _ _).2.2.2, ?_, ?_, ?_, ?_⟩
  · rcases hfind : s.store.find? (fun p => p.1 == callHash type prop args) with _ | ⟨h, item⟩
    · simp [cachedFn, hargs, hfind]
    · have hjs : jsLive item.expires now = false := by
        simpa [hitLive, hfind] using hmiss
      simp [cachedFn, hargs, hfind, hjs]
  · intro hn
    rcases hn with hn | hn <;> subst hn <;> simp [missPath]
  · intro hn1 hn2
    refine ⟨?_, mapGet_mapSet_self _ _ _, ?_⟩ <;>
      cases underlying <;> simp_all [missPath] <;> split <;> simp
  · intro h
    simp [expiresOf, h]
  · intro h
    simp [expiresOf, h]

/-- Concrete instance of C8: a fresh miss on an empty store stores the
resolved value and returns it, and with `ttl = 60` the stored expiry is
`now + 60000`. -/
theorem c8_witness :
    cachedFn "User" "findOne" [] 1000 (.secs 60) 50 (.num 7) emptyState
      = .ok (missPath (callHash "User" "findOne" []) 1000 (.secs 60) 50 (.num 7) emptyState)
    ∧ expiresOf (.secs 60) 1000 = .ts 61000 :=
  ⟨(c8_store_iff_nonnull "User" "findOne" [] 1000 (.secs 60) 50 (.num 7) emptyState
      rfl rfl).1,
   by simpa using (c8_store_iff_nonnull "User" "findOne" [] 1000 (.secs 60) 50 (.num 7)
      emptyState rfl rfl).2.2.2.2.1 rfl⟩

/-- The surviving entries of the purge scan are exactly the non-expired ones,
in order. -/
lemma purgeScan_kept (now : Nat) : ∀ (l : Store) (acc : Option (String × Expiry)),
    (purgeScan now l acc).kept = l.filter (fun p => !jsExpired p.2.expires now) := by
  intro l
  induction l with
  | nil => intro acc; rfl
  | cons p rest ih =>
    obtain ⟨h, e⟩ := p
    intro acc
    by_cases hx : jsExpired e.expires now = true
    · simp [purgeScan, hx, ih]
    · have hx' : jsExpired e.expires now = false := by simpa using hx
      simp [purgeScan, hx', ih]

/-- Once an oldest candidate is tracked, the scan keeps tracking one. -/
lemma purgeScan_oldest_acc_some (now : Nat) : ∀ (l : Store) (a : String × Expiry),
    ∃ o, (purgeScan now l (some a)).oldest = some o := by
  intro l
  induction l with
  | nil => intro a; exact ⟨a, rfl⟩
  | cons p rest ih =>
    obtain ⟨h, e⟩ := p
    intro a
    by_cases hx : jsExpired e.expires now = true
    · simpa [purgeScan, hx] using ih a
    · have hx' : jsExpired e.expires now = false := by simpa using hx
      by_cases hlt : expNum e.expires < expNum a.2
      · simpa [purgeScan, hx', hlt] using ih (h, e.expires)
      · simpa [purgeScan, hx', hlt] using ih a

/-- If any entry survives the scan, an oldest candidate is tracked. -/
lemma purgeScan_oldest_some_of_kept (now : Nat) : ∀ (l : Store),
    (purgeScan now l none).kept ≠ [] → ∃ o, (purgeScan now l none).oldest = some o := by
  intro l
  induction l with
  | nil => intro hne; exact absurd rfl hne
  | cons p rest ih =>
    obtain ⟨h, e⟩ := p
    intro hne
    by_cases hx : jsExpired e.expires now = true
    · have hne' : (purgeScan now rest none).kept ≠ [] := by
        simpa [purgeScan, hx] using hne
      obtain ⟨o, ho⟩ := ih hne'
      exact ⟨o, by simpa [purgeScan, hx] using ho⟩
    · have hx' : jsExpired e.expires now = false := by simpa using hx
      obtain ⟨o, ho⟩ := purgeScan_oldest_acc_some now rest (h, e.expires)
      exact ⟨o, by simpa [purgeScan, hx'] using ho⟩

/-- The tracked oldest candidate originates from the accumulator or from a
surviving entry, and its (JS-coerced) expiry is minimal among both. -/
lemma purgeScan_oldest_spec (now : Nat) : ∀ (l : Store) (acc : Option (String × Expiry))
    (o : String × Expiry), (purgeScan now l acc).oldest = some o →
    (acc = some o ∨ ∃ p, p ∈ l ∧ jsExpired p.2.expires now = false ∧ o = (p.1, p.2.expires))
    ∧ (∀ p, p ∈ l → jsExpired p.2.expires now = false → expNum o.2 ≤ expNum p.2.expires)
    ∧ (∀ a, acc = some a → expNum o.2 ≤ expNum a.2) := by
  intro l
  induction l with
  | nil =>
    intro acc o ho
    have hao : acc = some o := by simpa [purgeScan] using ho
    refine ⟨Or.inl hao, ?_, ?_⟩
    · intro p hp
      exact absurd hp (List.not_mem_nil p)
    · intro a ha
      rw [hao] at ha
      injection ha with ha'
      rw [ha']
  | cons p rest ih =>
    obtain ⟨h, e⟩ := p
    intro acc o ho
    by_cases hx : jsExpired e.expires now = true
    · have ho' : (purgeScan now rest acc).oldest = some o := by
        simpa [purgeScan, hx] using ho
      obtain ⟨h1, h2, h3⟩ := ih acc o ho'
      refine ⟨?_, ?_, h3⟩
      · rcases h1 with h1 | ⟨q, hq, hqe, hqo⟩
        · exact Or.inl h1
        · exact Or.inr ⟨q, List.mem_cons_of_mem _ hq, hqe, hqo⟩
      · intro q hq hqe
        rcases List.mem_cons.mp hq with h4 | h4
        · rw [h4] at hqe
          rw [hqe] at hx
          cases hx
        · exact h2 q h4 hqe
    · have hx' : jsExpired e.expires now = false := by simpa using hx
      rcases acc with _ | a
      · have ho' : (purgeScan now rest (some (h, e.expires))).oldest = some o := by
          simpa [purgeScan, hx'] using ho
        obtain ⟨h1, h2, h3⟩ := ih _ o ho'
        have hoe : expNum o.2 ≤ expNum e.expires := h3 (h, e.expires) rfl
        refine ⟨?_, ?_, ?_⟩
        · rcases h1 with h1 | ⟨q, hq, hqe, hqo⟩
          · injection h1 with h1'
            exact Or.inr ⟨(h, e), List.mem_cons_self _ _, hx', h1'.symm⟩
          · exact Or.inr ⟨q, List.mem_cons_of_mem _ hq, hqe, hqo⟩
        · intro q hq hqe
          rcases List.mem_cons.mp hq with h4 | h4
          · rw [h4]
            exact hoe
          · exact h2 q h4 hqe
        · intro a ha
          exact absurd ha (by simp)
      · by_cases hlt : expNum e.expires < expNum a.2
        · have ho' : (purgeScan now rest (some (h, e.expires))).oldest = some o := by
            simpa [purgeScan, hx', hlt] using ho
          obtain ⟨h1, h2, h3⟩ := ih _ o ho'
          have hoe : expNum o.2 ≤ expNum e.expires := h3 (h, e.expires) rfl
          refine ⟨?_, ?_, ?_⟩
          · rcases h1 with h1 | ⟨q, hq, hqe, hqo⟩
            · injection h1 with h1'
              exact Or.inr ⟨(h, e), List.mem_cons_self _ _, hx', h1'.symm⟩
            · exact Or.inr ⟨q, List.mem_cons_of_mem _ hq, hqe, hqo⟩
          · intro q hq hqe
            rcases List.mem_cons.mp hq with h4 | h4
            · rw [h4]
              exact hoe
            · exact h2 q h4 hqe
          · intro b hb
            injection hb with hb'
            rw [← hb']
            exact le_of_lt (lt_of_le_of_lt hoe hlt)
        · have ho' : (purgeScan now rest (some a)).oldest = some o := by
            simpa [purgeScan, hx', hlt] using ho
          obtain ⟨h1, h2, h3⟩ := ih _ o ho'
          have hoa : expNum o.2 ≤ expNum a.2 := h3 a rfl
          have hae : expNum a.2 ≤ expNum e.expires := Nat.not_lt.mp hlt
          refine ⟨?_, ?_, ?_⟩
          · rcases h1 with h1 | ⟨q, hq, hqe, hqo⟩
            · exact Or.inl h1
            · exact Or.inr ⟨q, List.mem_cons_of_mem _ hq, hqe, hqo⟩
          · intro q hq hqe
            rcases List.mem_cons.mp hq with h4 | h4
            · rw [h4]
              exact le_trans hoa hae
            · exact h2 q h4 hqe
          · intro b hb
            injection hb with hb'
            rw [← hb']
            exact hoa

/-- An entry whose key differs from the erased key survives the erasure. -/
lemma mem_eraseP_of_key_ne {β : Type} (k : String) : ∀ (l : List (String × β)) (q : String × β),
    q ∈ l → q.1 ≠ k → q ∈ l.eraseP (fun p => p.1 == k) := by
  intro l
  induction l with
  | nil =>
    intro q hq
    exact absurd hq (List.not_mem_nil q)
  | cons a rest ih =>
    intro q hq hqk
    by_cases ha : (a.1 == k) = true
    · rw [List.eraseP_cons_of_pos (p := fun x : String × β => x.1 == k) ha]
      rcases List.mem_cons.mp hq with h1 | h1
      · exact absurd (by rw [h1]; exact eq_of_beq ha) hqk
      · exact h1
    · rw [List.eraseP_cons_of_neg (p := fun x : String × β => x.1 == k) ha]
      rcases List.mem_cons.mp hq with h1 | h1
      · rw [h1]
        exact List.mem_cons_self _ _
      · exact List.mem_cons_of_mem _ (ih q h1 hqk)

/-- With duplicate-free keys, erasing by an entry's key removes that entry. -/
lemma not_mem_eraseP_key {β : Type} (k : String) : ∀ (l : List (String × β)) (v : β),
    (l.map Prod.fst).Nodup → (k, v) ∈ l → (k, v) ∉ l.eraseP (fun p => p.1 == k) := by
  intro l
  induction l with
  | nil =>
    intro v _ hm
    exact absurd hm (List.not_mem_nil _)
  | cons a rest ih =>
    intro v hnd hm
    have hnd1 : (a.1 :: rest.map Prod.fst).Nodup := by
      rw [List.map_cons] at hnd
      exact hnd
    have hnd2 := List.nodup_cons.mp hnd1
    by_cases ha : (a.1 == k) = true
    · rw [List.eraseP_cons_of_pos (p := fun x : String × β => x.1 == k) ha]
      intro hc
      apply hnd2.1
      rw [eq_of_beq ha]
      exact List.mem_map.mpr ⟨(k, v), hc, rfl⟩
    · rw [List.eraseP_cons_of_neg (p := fun x : String × β => x.1 == k) ha]
      intro hc
      rcases List.mem_cons.mp hc with h1 | h1
      · exact ha (by rw [← h1]; exact beq_self_eq_true k)
      · exact ih v hnd2.2 (List.mem_of_mem_eraseP h1) h1

/-- Every entry of the purge result survived the scan. -/
lemma purge_subset_kept (store : Store) (now limit : Nat) :
    ∀ q ∈ (purge store now limit).1, q ∈ store.filter (fun p => !jsExpired p.2.expires now) := by
  intro q hq
  rw [← purgeScan_kept now store none]
  simp only [purge] at hq
  rcases ho : (purgeScan now store none).oldest with _ | o
  · rw [ho] at hq
    exact hq
  · rw [ho] at hq
    by_cases hl : limit < (purgeScan now store none).kept.length
    · simp only [hl, if_true] at hq
      exact List.mem_of_mem_eraseP hq
    · simp only [hl, if_false] at hq
      exact hq

/-- Unfolding of `purge` when no oldest candidate was tracked. -/
lemma purge_eq_of_oldest_none (store : Store) (now limit : Nat)
    (ho : (purgeScan now store none).oldest = none) :
    purge store now limit = ((purgeScan now store none).kept, (purgeScan now store none).events) := by
  simp [purge, ho]

/-- Unfolding of `purge` when an oldest candidate was tracked. -/
lemma purge_eq_of_oldest_some (store : Store) (now limit : Nat) (o : String × Expiry)
    (ho : (purgeScan now store none).oldest = some o) :
    purge store now limit
      = (if limit < (purgeScan now store none).kept.length
         then ((purgeScan now store none).kept.eraseP (fun p => p.1 == o.1),
               (purgeScan now store none).events + 1)
         else ((purgeScan now store none).kept, (purgeScan now store none).events)) := by
  simp [purge, ho]

/-- C3: For every store and limit, one purge call deletes every entry whose
expiry is truthy and ≤ now, and then, if the store size still exceeds the
limit and a non-deleted candidate was tracked, deletes exactly one
additional entry — one with the earliest expiry timestamp among the
surviving candidates — so that inserting N+1 distinct fresh entries under
size limit N and purging reduces the store size by exactly one. Stated for
stores of timestamped entries; the behaviour of never-expiring entries
under eviction is settled separately (see the correction of C2). -/
theorem c3_purge_expired_then_one_oldest (store : Store) (now limit : Nat)
    (hkeys : (store.map Prod.fst).Nodup)
    (hts : ∀ p ∈ store, p.2.expires ≠ .never) :
    (∀ p ∈ (purge store now limit).1, jsExpired p.2.expires now = false)
    ∧ ((store.filter (fun p => !jsExpired p.2.expires now)).length ≤ limit →
        (purge store now limit).1 = store.filter (fun p => !jsExpired p.2.expires now))
    ∧ (limit < (store.filter (fun p => !jsExpired p.2.expires now)).length →
        ∃ h e t, (h, e) ∈ store.filter (fun p => !jsExpired p.2.expires now)
          ∧ e.expires = .ts t
          ∧ (∀ q ∈ store.filter (fun p => !jsExpired p.2.expires now),
              ∀ u, q.2.expires = .ts u → t ≤ u)
          ∧ (purge store now limit).1
              = (store.filter (fun p => !jsExpired p.2.expires now)).eraseP
                  (fun q => q.1 == h)
          ∧ (h, e) ∉ (purge store now limit).1
          ∧ (∀ q ∈ store.filter (fun p => !jsExpired p.2.expires now),
              q.1 ≠ h → q ∈ (purge store now limit).1)
          ∧ (purge store now limit).1.length + 1
              = (store.filter (fun p => !jsExpired p.2.expires now)).length)
    ∧ ((∀ p ∈ store, jsExpired p.2.expires now = false) → store.length = limit + 1 →
        (purge store now limit).1.length = limit) := by
  have hkept : (purgeScan now store none).kept
      = store.filter (fun p => !jsExpired p.2.expires now) := purgeScan_kept now store none
  have hA : ∀ p ∈ (purge store now limit).1, jsExpired p.2.expires now = false := by
    intro p hp
    have h2 := (List.mem_filter.mp (purge_subset_kept store now limit p hp)).2
    simpa using h2
  have hB : (store.filter (fun p => !jsExpired p.2.expires now)).length ≤ limit →
      (purge store now limit).1 = store.filter (fun p => !jsExpired p.2.expires now) := by
    intro hle
    rcases ho : (purgeScan now store none).oldest with _ | o
    · rw [purge_eq_of_oldest_none store now limit ho]
      exact hkept
    · have hno : ¬ limit < (purgeScan now store none).kept.length := by
        rw [hkept]
        omega
      rw [purge_eq_of_oldest_some store now limit o ho, if_neg hno]
      exact hkept
  have hC : limit < (store.filter (fun p => !jsExpired p.2.expires now)).length →
      ∃ h e t, (h, e) ∈ store.filter (fun p => !jsExpired p.2.expires now)
        ∧ e.expires = .ts t
        ∧ (∀ q ∈ store.filter (fun p => !jsExpired p.2.expires now),
            ∀ u, q.2.expires = .ts u → t ≤ u)
        ∧ (purge store now limit).1
            = (store.filter (fun p => !jsExpired p.2.expires now)).eraseP (fun q => q.1 == h)
        ∧ (h, e) ∉ (purge store now limit).1
        ∧ (∀ q ∈ store.filter (fun p => !jsExpired p.2.expires now),
            q.1 ≠ h → q ∈ (purge store now limit).1)
        ∧ (purge store now limit).1.length + 1
            = (store.filter (fun p => !jsExpired p.2.expires now)).length := by
    intro hlt
    have hne : (purgeScan now store none).kept ≠ [] := by
      rw [hkept]
      intro hnil
      rw [hnil] at hlt
      simp at hlt
    obtain ⟨o, ho⟩ := purgeScan_oldest_some_of_kept now store hne
    obtain ⟨h1, h2, -⟩ := purgeScan_oldest_spec now store none o ho
    rcases h1 with h1 | ⟨p, hp, hpe, hpo⟩
    · exact absurd h1 (by simp)
    obtain ⟨ph, pe⟩ := p
    have hpmem : (ph, pe) ∈ store.filter (fun p => !jsExpired p.2.expires now) :=
      List.mem_filter.mpr ⟨hp, by simp [hpe]⟩
    have hknd : ((store.filter (fun p => !jsExpired p.2.expires now)).map Prod.fst).Nodup :=
      List.Nodup.sublist (List.Sublist.map Prod.fst (List.filter_sublist store)) hkeys
    have hl' : limit < (purgeScan now store none).kept.length := by
      rw [hkept]
      exact hlt
    have hres : (purge store now limit).1
        = (store.filter (fun p => !jsExpired p.2.expires now)).eraseP (fun q => q.1 == ph) := by
      rw [purge_eq_of_oldest_some store now limit o ho, if_pos hl', hkept, hpo]
    cases hpt : pe.expires with
    | never => exact absurd hpt (hts (ph, pe) hp)
    | ts t =>
      refine ⟨ph, pe, t, hpmem, hpt, ?_, hres, ?_, ?_, ?_⟩
      · intro q hq u hqu
        have hq1 := List.mem_filter.mp hq
        have h5 := h2 q hq1.1 (by simpa using hq1.2)
        rw [hpo] at h5
        simp [expNum, hpt, hqu] at h5
        exact h5
      · rw [hres]
        exact not_mem_eraseP_key ph _ pe hknd hpmem
      · intro q hq hqne
        rw [hres]
        exact mem_eraseP_of_key_ne ph _ q hq hqne
      · rw [hres]
        have hlen := List.length_eraseP_of_mem (p := fun q : String × Entry => q.1 == ph)
          hpmem (by simp)
        have hpos : 0 < (store.filter (fun p => !jsExpired p.2.expires now)).length := by
          omega
        omega
  refine ⟨hA, hB, hC, ?_⟩
  intro hfresh hlen
  have hkeq : store.filter (fun p => !jsExpired p.2.expires now) = store :=
    List.filter_eq_self.mpr (fun a ha => by simp [hfresh a ha])
  have hlt : limit < (store.filter (fun p => !jsExpired p.2.expires now)).length := by
    rw [hkeq, hlen]
    omega
  obtain ⟨h', e', t, -, -, -, -, -, -, hlenq⟩ := hC hlt
  rw [hkeq, hlen] at hlenq
  omega

/-- Concrete instance of C3: purging three distinct fresh entries under size
limit 2 leaves exactly 2 entries. -/
theorem c3_witness : (purge freshStore 0 2).1.length = 2 :=
  (c3_purge_expired_then_one_oldest freshStore 0 2 (by decide) (by decide)).2.2.2
    (by decide) rfl

/-- C2 as stated is false: with the store over its limit, the purge scan
tracks the never-expiring entry `h2` as the oldest candidate (JS coerces
`false` to `0` in `expires < oldest.expires`) and the size-limit eviction
step deletes it, leaving only the timestamped entry. -/
theorem c2_counterexample :
    ("h2", Entry.mk (.num 2) .never) ∈ neverStore
    ∧ neverStore.length = 2
    ∧ (∀ p ∈ neverStore, jsExpired p.2.expires 0 = false)
    ∧ (purge neverStore 0 1).1 = [("h1", ⟨.num 1, .ts 5⟩)]
    ∧ (purge neverStore 0 1).1.map Prod.fst = ["h1"] :=
  ⟨List.mem_cons_of_mem _ (List.mem_cons_self _ _), rfl, by decide, rfl, rfl⟩

/-- C2 corrected: during a purge scan, entries whose expiry is the
never-expiring sentinel `false` ARE selected as the tracked oldest entry —
the JS comparison coerces `false` to `0`, earlier than every nonzero
timestamp — so whenever the store is over its size limit and a
never-expiring entry survives the scan, the size-limit eviction step deletes
a never-expiring entry. -/
theorem c2_amended_never_entries_are_evicted (store : Store) (now limit : Nat)
    (hnever : ∃ p ∈ store, p.2.expires = .never)
    (hnz : ∀ p ∈ store, p.2.expires ≠ .ts 0)
    (hover : limit < (store.filter (fun p => !jsExpired p.2.expires now)).length) :
    ∃ h e, (h, e) ∈ store ∧ e.expires = .never
      ∧ (purge store now limit).1
          = (store.filter (fun p => !jsExpired p.2.expires now)).eraseP (fun q => q.1 == h) := by
  have hkept : (purgeScan now store none).kept
      = store.filter (fun p => !jsExpired p.2.expires now) := purgeScan_kept now store none
  have hne : (purgeScan now store none).kept ≠ [] := by
    rw [hkept]
    intro hnil
    rw [hnil] at hover
    simp at hover
  obtain ⟨o, ho⟩ := purgeScan_oldest_some_of_kept now store hne
  obtain ⟨h1, h2, -⟩ := purgeScan_oldest_spec now store none o ho
  rcases h1 with h1 | ⟨p, hp, hpe, hpo⟩
  · exact absurd h1 (by simp)
  obtain ⟨ph, pe⟩ := p
  have hl' : limit < (purgeScan now store none).kept.length := by
    rw [hkept]
    exact hover
  have hres : (purge store now limit).1
      = (store.filter (fun p => !jsExpired p.2.expires now)).eraseP (fun q => q.1 == ph) := by
    rw [purge_eq_of_oldest_some store now limit o ho, if_pos hl', hkept, hpo]
  obtain ⟨q, hq, hqnev⟩ := hnever
  have hqe : jsExpired q.2.expires now = false := by
    rw [hqnev]
    rfl
  have h5 := h2 q hq hqe
  rw [hpo, hqnev] at h5
  cases hpt : pe.expires with
  | ts t =>
    exfalso
    rw [hpt] at h5
    simp [expNum] at h5
    have ht0 : t = 0 := by omega
    apply hnz (ph, pe) hp
    rw [hpt, ht0]
  | never => exact ⟨ph, pe, hp, hpt, hres⟩

/-- Concrete instance of the corrected C2 at the counterexample store. -/
theorem c2_witness :
    ∃ h e, (h, e) ∈ neverStore ∧ e.expires = .never
      ∧ (purge neverStore 0 1).1
          = (neverStore.filter (fun p => !jsExpired p.2.expires 0)).eraseP (fun q => q.1 == h) :=
  c2_amended_never_entries_are_evicted neverStore 0 1
    ⟨("h2", ⟨.num 2, .never⟩), List.mem_cons_of_mem _ (List.mem_cons_self _ _), rfl⟩
    (by decide) (by decide)

/-- `contains` agrees with membership for strings. -/
lemma str_contains_iff (l : List String) (a : String) : l.contains a = true ↔ a ∈ l := by
  simp [List.contains]

/-- A pointwise-stronger filter keeps at most as many elements. -/
lemma length_filter_mono {α : Type} (l : List α) (p q : α → Bool)
    (h : ∀ x, p x = true → q x = true) : (l.filter p).length ≤ (l.filter q).length := by
  induction l with
  | nil => simp
  | cons a rest ih =>
    by_cases hp : p a = true
    · rw [List.filter_cons_of_pos hp, List.filter_cons_of_pos (h a hp)]
      simpa using Nat.succ_le_succ ih
    · have hp' : p a = false := by simpa using hp
      rw [List.filter_cons_of_neg (by simp [hp'])]
      by_cases hq : q a = true
      · rw [List.filter_cons_of_pos hq]
        exact le_trans ih (Nat.le_succ _)
      · have hq' : q a = false := by simpa using hq
        rw [List.filter_cons_of_neg (by simp [hq'])]
        exact ih

/-- Visiting a new node from the universe strictly shrinks the unvisited part
of the universe. -/
lemma filter_not_contains_append_lt (U visited : List String) (t : String)
    (hU : t ∈ U) (ht : t ∉ visited) :
    (U.filter (fun x => !((visited ++ [t]).contains x))).length
      < (U.filter (fun x => !(visited.contains x))).length := by
  have hmono : ∀ x : String,
      (fun x => !((visited ++ [t]).contains x)) x = true →
      (fun x => !(visited.contains x)) x = true := by
    intro x hx
    by_cases hm : x ∈ visited
    · exfalso
      have hmm : x ∈ visited ++ [t] := List.mem_append.mpr (Or.inl hm)
      simp [hmm] at hx
    · simp [hm]
  induction U with
  | nil => cases hU
  | cons u us ih =>
    by_cases hut : u = t
    · subst hut
      rw [List.filter_cons_of_neg (p := fun x => !((visited ++ [u]).contains x))
          (by simp [List.contains]),
        List.filter_cons_of_pos (p := fun x => !(visited.contains x))
          (by simp [List.contains, ht])]
      have hle := length_filter_mono us _ _ hmono
      simpa using Nat.lt_succ_of_le hle
    · have hUs : t ∈ us := by
        rcases List.mem_cons.mp hU with h | h
        · exact absurd h.symm hut
        · exact h
      by_cases hpo : (fun x => !(visited.contains x)) u = true
      · rw [List.filter_cons_of_pos (p := fun x => !(visited.contains x)) hpo]
        by_cases hpn : (fun x => !((visited ++ [t]).contains x)) u = true
        · rw [List.filter_cons_of_pos (p := fun x => !((visited ++ [t]).contains x)) hpn]
          simpa using Nat.succ_lt_succ (ih hUs)
        · rw [List.filter_cons_of_neg (p := fun x => !((visited ++ [t]).contains x)) hpn]
          have hlt := ih hUs
          simp only [List.length_cons]
          omega
      · have hpn : ¬((fun x => !((visited ++ [t]).contains x)) u = true) :=
          fun hx => hpo (hmono u hx)
        rw [List.filter_cons_of_neg (p := fun x => !(visited.contains x)) hpo,
          List.filter_cons_of_neg (p := fun x => !((visited ++ [t]).contains x)) hpn]
        exact ih hUs

/-- Every adjacency list of the map is bounded by `maxAdj`. -/
lemma mem_le_maxAdj : ∀ (assoc : AssocMap) (p : String × List String),
    p ∈ assoc → p.2.length ≤ maxAdj assoc := by
  intro assoc
  induction assoc with
  | nil =>
    intro p hp
    cases hp
  | cons q rest ih =>
    intro p hp
    rcases List.mem_cons.mp hp with h | h
    · rw [h]
      show q.2.length ≤ max q.2.length (maxAdj rest)
      exact Nat.le_max_left _ _
    · exact le_trans (ih p h)
        (show maxAdj rest ≤ max q.2.length (maxAdj rest) from Nat.le_max_right _ _)

/-- The neighbour list of any node is bounded by `maxAdj`. -/
lemma getAssoc_length_le (assoc : AssocMap) (t : String) :
    (getAssoc assoc t).length ≤ maxAdj assoc := by
  unfold getAssoc mapGet
  rcases hf : assoc.find? (fun p => p.1 == t) with _ | p
  · rw [hf]
    simp
  · rw [hf]
    have := mem_le_maxAdj assoc p (List.mem_of_find?_eq_some hf)
    simpa using this

/-- Neighbours live in the BFS universe. -/
lemma getAssoc_subset_universe (assoc : AssocMap) (roots : List String) (t x : String)
    (hx : x ∈ getAssoc assoc t) : x ∈ assocUniverse assoc roots := by
  unfold getAssoc mapGet at hx
  rcases hf : assoc.find? (fun p => p.1 == t) with _ | p
  · rw [hf] at hx
    simp at hx
  · rw [hf] at hx
    simp at hx
    have hp := List.mem_of_find?_eq_some hf
    unfold assocUniverse
    refine List.mem_append.mpr (Or.inr ?_)
    exact List.mem_flatten.mpr ⟨p.2, List.mem_map.mpr ⟨p, hp, rfl⟩, hx⟩

/-- Master invariant of the fuelled BFS: with fuel at least the standard
measure, the result is duplicate-free, contains the visited set and the
queue, is sound for any step-closed predicate holding on them, and is closed
under adjacency. -/
lemma bfsAux_spec (assoc : AssocMap) (U : List String) (R : String → Prop)
    (hUadj : ∀ t x, x ∈ getAssoc assoc t → x ∈ U)
    (hRstep : ∀ x y, R x → y ∈ getAssoc assoc x → R y) :
    ∀ (fuel : Nat) (queue visited : List String),
      (U.filter (fun x => !(visited.contains x))).length * (maxAdj assoc + 1) + queue.length
        ≤ fuel →
      (∀ x ∈ queue, x ∈ U) →
      visited.Nodup →
      (∀ x ∈ visited, R x) →
      (∀ x ∈ queue, R x) →
      (∀ x ∈ visited, ∀ y ∈ getAssoc assoc x, y ∈ visited ∨ y ∈ queue) →
      (bfsAux assoc fuel queue visited).Nodup
      ∧ (∀ x ∈ visited, x ∈ bfsAux assoc fuel queue visited)
      ∧ (∀ x ∈ queue, x ∈ bfsAux assoc fuel queue visited)
      ∧ (∀ x ∈ bfsAux assoc fuel queue visited, R x)
      ∧ (∀ x ∈ bfsAux assoc fuel queue visited, ∀ y ∈ getAssoc assoc x,
          y ∈ bfsAux assoc fuel queue visited) := by
  intro fuel
  induction fuel with
  | zero =>
    intro queue visited hm hqU hnd hvR hqR hclosed
    cases queue with
    | nil =>
      refine ⟨hnd, fun x hx => hx, ?_, hvR, ?_⟩
      · intro x hx
        cases hx
      · intro x hx y hy
        rcases hclosed x hx y hy with h | h
        · exact h
        · cases h
    | cons t rest =>
      exfalso
      simp only [List.length_cons] at hm
      omega
  | succ n ih =>
    intro queue visited hm hqU hnd hvR hqR hclosed
    cases queue with
    | nil =>
      refine ⟨hnd, fun x hx => hx, ?_, hvR, ?_⟩
      · intro x hx
        cases hx
      · intro x hx y hy
        rcases hclosed x hx y hy with h | h
        · exact h
        · cases h
    | cons t rest =>
      by_cases hv : visited.contains t = true
      · have hvmem : t ∈ visited := (str_contains_iff visited t).mp hv
        have hstep : bfsAux assoc (n + 1) (t :: rest) visited
            = bfsAux assoc n rest visited := by
          show (if visited.contains t then bfsAux assoc n rest visited
            else bfsAux assoc n
              (rest ++ (getAssoc assoc t).filter (fun a => !((visited ++ [t]).contains a)))
              (visited ++ [t])) = bfsAux assoc n rest visited
          rw [hv]
          rfl
        rw [hstep]
        obtain ⟨ih1, ih2, ih3, ih4, ih5⟩ := ih rest visited
          (by simp only [List.length_cons] at hm; omega)
          (fun x hx => hqU x (List.mem_cons_of_mem _ hx))
          hnd hvR
          (fun x hx => hqR x (List.mem_cons_of_mem _ hx))
          (by
            intro x hx y hy
            rcases hclosed x hx y hy with h | h
            · exact Or.inl h
            · rcases List.mem_cons.mp h with h1 | h1
              · rw [h1]
                exact Or.inl hvmem
              · exact Or.inr h1)
        refine ⟨ih1, ih2, ?_, ih4, ih5⟩
        intro x hx
        rcases List.mem_cons.mp hx with h1 | h1
        · rw [h1]
          exact ih2 t hvmem
        · exact ih3 x h1
      · have hvmem : t ∉ visited := fun hc => hv ((str_contains_iff visited t).mpr hc)
        have hv' : visited.contains t = false := by simpa using hv
        have htU : t ∈ U := hqU t (List.mem_cons_self _ _)
        have hstep : bfsAux assoc (n + 1) (t :: rest) visited
            = bfsAux assoc n
                (rest ++ (getAssoc assoc t).filter (fun a => !((visited ++ [t]).contains a)))
                (visited ++ [t]) := by
          show (if visited.contains t then bfsAux assoc n rest visited
            else bfsAux assoc n
              (rest ++ (getAssoc assoc t).filter (fun a => !((visited ++ [t]).contains a)))
              (visited ++ [t]))
            = bfsAux assoc n
                (rest ++ (getAssoc assoc t).filter (fun a => !((visited ++ [t]).contains a)))
                (visited ++ [t])
          rw [hv']
          rfl
        rw [hstep]
        have hflt := filter_not_contains_append_lt U visited t htU hvmem
        have hpushlen : ((getAssoc assoc t).filter
            (fun a => !((visited ++ [t]).contains a))).length ≤ maxAdj assoc :=
          le_trans (List.length_filter_le _ _) (getAssoc_length_le assoc t)
        obtain ⟨ih1, ih2, ih3, ih4, ih5⟩ := ih
          (rest ++ (getAssoc assoc t).filter (fun a => !((visited ++ [t]).contains a)))
          (visited ++ [t])
          (by
            rw [List.length_append]
            have hmul : ((U.filter (fun x => !((visited ++ [t]).contains x))).length + 1)
                * (maxAdj assoc + 1)
                ≤ (U.filter (fun x => !(visited.contains x))).length * (maxAdj assoc + 1) :=
              Nat.mul_le_mul_right _ hflt
            have hsm : ((U.filter (fun x => !((visited ++ [t]).contains x))).length + 1)
                * (maxAdj assoc + 1)
                = (U.filter (fun x => !((visited ++ [t]).contains x))).length
                    * (maxAdj assoc + 1) + (maxAdj assoc + 1) := Nat.succ_mul _ _
            simp only [List.length_cons] at hm
            omega)
          (by
            intro x hx
            rcases List.mem_append.mp hx with h1 | h1
            · exact hqU x (List.mem_cons_of_mem _ h1)
            · exact hUadj t x (List.mem_of_mem_filter h1))
          (by
            rw [List.nodup_append]
            exact ⟨hnd, List.nodup_singleton t,
              by simpa [List.disjoint_singleton] using hvmem⟩)
          (by
            intro x hx
            rcases List.mem_append.mp hx with h1 | h1
            · exact hvR x h1
            · rw [List.mem_singleton.mp h1]
              exact hqR t (List.mem_cons_self _ _))
          (by
            intro x hx
            rcases List.mem_append.mp hx with h1 | h1
            · exact hqR x (List.mem_cons_of_mem _ h1)
            · exact hRstep t x (hqR t (List.mem_cons_self _ _)) (List.mem_of_mem_filter h1))
          (by
            intro x hx y hy
            rcases List.mem_append.mp hx with h1 | h1
            · rcases hclosed x h1 y hy with h2 | h2
              · exact Or.inl (List.mem_append.mpr (Or.inl h2))
              · rcases List.mem_cons.mp h2 with h3 | h3
                · rw [h3]
                  exact Or.inl (List.mem_append.mpr (Or.inr (List.mem_singleton.mpr rfl)))
                · exact Or.inr (List.mem_append.mpr (Or.inl h3))
            · rw [List.mem_singleton.mp h1] at hy
              by_cases hyc : (visited ++ [t]).contains y = true
              · exact Or.inl ((str_contains_iff _ y).mp hyc)
              · have hym : y ∉ visited ++ [t] := fun hc => hyc ((str_contains_iff _ y).mpr hc)
                have h1y : y ∉ visited := fun hc => hym (List.mem_append.mpr (Or.inl hc))
                have h2y : y ≠ t := fun hc =>
                  hym (List.mem_append.mpr (Or.inr (by rw [hc]; exact List.mem_singleton.mpr rfl)))
                refine Or.inr (List.mem_append.mpr (Or.inr ?_))
                exact List.mem_filter.mpr ⟨hy, by simp [h1y, h2y]⟩)
        refine ⟨ih1, ?_, ?_, ih4, ih5⟩
        · intro x hx
          exact ih2 x (List.mem_append.mpr (Or.inl hx))
        · intro x hx
          rcases List.mem_cons.mp hx with h1 | h1
          · rw [h1]
            exact ih2 t (List.mem_append.mpr (Or.inr (List.mem_singleton.mpr rfl)))
          · exact ih3 x (List.mem_append.mpr (Or.inl h1))

/-- `closureList` is duplicate-free, contains the roots, is sound for
reachability and closed under adjacency. -/
lemma closureList_spec (assoc : AssocMap) (roots : List String) :
    (closureList assoc roots).Nodup
    ∧ (∀ x ∈ roots, x ∈ closureList assoc roots)
    ∧ (∀ x ∈ closureList assoc roots, Reach assoc roots x)
    ∧ (∀ x ∈ closureList assoc roots, ∀ y ∈ getAssoc assoc x,
        y ∈ closureList assoc roots) := by
  have hfil : (assocUniverse assoc roots).filter (fun x => !(([] : List String).contains x))
      = assocUniverse assoc roots := by
    simp
  have hspec := bfsAux_spec assoc (assocUniverse assoc roots) (Reach assoc roots)
    (fun t x hx => getAssoc_subset_universe assoc roots t x hx)
    (fun x y hR hy => Reach.step hR hy)
    (bfsFuel assoc roots) roots []
    (by
      rw [hfil]
      unfold bfsFuel
      exact le_refl _)
    (fun x hx => List.mem_append.mpr (Or.inl (List.mem_append.mpr (Or.inl hx))))
    List.nodup_nil
    (by intro x hx; cases hx)
    (fun x hx => Reach.root hx)
    (by intro x hx; cases hx)
  obtain ⟨h1, h2, h3, h4, h5⟩ := hspec
  exact ⟨h1, h3, h4, h5⟩

/-- Membership in the clear closure is exactly reachability. -/
lemma closureList_mem_iff (assoc : AssocMap) (roots : List String) (x : String) :
    x ∈ closureList assoc roots ↔ Reach assoc roots x := by
  constructor
  · exact (closureList_spec assoc roots).2.2.1 x
  · intro hr
    induction hr with
    | root h => exact (closureList_spec assoc roots).2.1 _ h
    | step hR hy ih => exact (closureList_spec assoc roots).2.2.2 _ ih _ hy

/-- `clear` with explicit roots empties the store of every type reachable
from the roots and leaves every other type's store untouched. -/
lemma clear_spec (assoc : AssocMap) (cache : CacheMap) (roots : List String)
    (hroots : roots ≠ []) :
    ∀ p ∈ cache,
      (Reach assoc roots p.1 → (p.1, ([] : Store)) ∈ clear assoc cache roots)
      ∧ (¬ Reach assoc roots p.1 → p ∈ clear assoc cache roots) := by
  intro p hp
  have hemp : roots.isEmpty = false := by
    cases roots with
    | nil => exact absurd rfl hroots
    | cons a l => rfl
  have hclear : clear assoc cache roots
      = cache.map (fun q =>
          if (closureList assoc roots).contains q.1 then (q.1, ([] : Store)) else q) := by
    simp only [clear]
    rw [hemp]
    rfl
  constructor
  · intro hr
    have hmem : (closureList assoc roots).contains p.1 = true :=
      (str_contains_iff _ p.1).mpr ((closureList_mem_iff assoc roots p.1).mpr hr)
    rw [hclear]
    refine List.mem_map.mpr ⟨p, hp, ?_⟩
    rw [hmem]
    rfl
  · intro hr
    have hmem : (closureList assoc roots).contains p.1 = false := by
      cases hc : (closureList assoc roots).contains p.1
      · rfl
      · exact absurd ((closureList_mem_iff assoc roots p.1).mp
          ((str_contains_iff _ p.1).mp hc)) hr
    rw [hclear]
    refine List.mem_map.mpr ⟨p, hp, ?_⟩
    rw [hmem]
    rfl

/-- C4: For every association graph, including graphs containing cycles (such
as the three-node cycle A↔B↔C↔A), the clear operation's breadth-first closure
computation terminates with a duplicate-free visit list (each reachable type
visited at most once), its members are exactly the types reachable from the
given roots (including the roots themselves), and clearing empties the store
of every reachable type while leaving unreachable types untouched; on the
concrete three-node cycle, clearing from A visits exactly A, B, C once each. -/
theorem c4_clear_bfs_closure :
    (∀ (assoc : AssocMap) (roots : List String),
      (closureList assoc roots).Nodup
      ∧ (∀ x, x ∈ closureList assoc roots ↔ Reach assoc roots x)
      ∧ (roots ≠ [] → ∀ (cache : CacheMap), ∀ p ∈ cache,
          (Reach assoc roots p.1 → (p.1, ([] : Store)) ∈ clear assoc cache roots)
          ∧ (¬ Reach assoc roots p.1 → p ∈ clear assoc cache roots)))
    ∧ closureList cycleAssoc ["A"] = ["A", "B", "C"] := by
  refine ⟨?_, rfl⟩
  intro assoc roots
  exact ⟨(closureList_spec assoc roots).1, closureList_mem_iff assoc roots,
    fun hroots cache => clear_spec assoc cache roots hroots⟩

/-- Concrete instance of C4: on the A↔B graph, clearing from A empties A and
B but leaves the unreachable C untouched, and the cycle closure holds. -/
theorem c4_witness :
    ("A", ([] : Store)) ∈ clear assocAB cacheABC ["A"]
    ∧ ("B", ([] : Store)) ∈ clear assocAB cacheABC ["A"]
    ∧ ("C", [("hc", Entry.mk (.num 3) .never)]) ∈ clear assocAB cacheABC ["A"] := by
  have hmain := c4_clear_bfs_closure.1 assocAB ["A"]
  have hc := hmain.2.2 (by decide) cacheABC
  have hnr : ¬ Reach assocAB ["A"] "C" := by
    intro hr
    have := (hmain.2.1 "C").mpr hr
    revert this
    decide
  refine ⟨?_, ?_, ?_⟩
  · exact (hc ("A", [("ha", ⟨.num 1, .never⟩)]) (List.mem_cons_self _ _)).1
      (Reach.root (by decide))
  · exact (hc ("B", [("hb", ⟨.num 2, .never⟩)])
      (List.mem_cons_of_mem _ (List.mem_cons_self _ _))).1
      (Reach.step (x := "A") (Reach.root (by decide)) (by decide))
  · exact (hc ("C", [("hc", ⟨.num 3, .never⟩)])
      (List.mem_cons_of_mem _ (List.mem_cons_of_mem _ (List.mem_cons_self _ _)))).2 hnr

/-- C6: For every configured model A with clearOnUpdate true, accessing an
invalidating operation on A clears the caches of A and of every type
reachable from A via association edges, while the cache of any type C not
reachable from A is left unchanged. -/
theorem c6_update_clears_closure_frame (assoc : AssocMap) (cache : CacheMap) (A : String) :
    (∀ st, (A, st) ∈ cache → (A, ([] : Store)) ∈ accessUpdateMember true assoc cache A)
    ∧ (∀ B st, (B, st) ∈ cache → Reach assoc [A] B →
        (B, ([] : Store)) ∈ accessUpdateMember true assoc cache A)
    ∧ (∀ C st, (C, st) ∈ cache → ¬ Reach assoc [A] C →
        (C, st) ∈ accessUpdateMember true assoc cache A) := by
  have hacc : accessUpdateMember true assoc cache A = clear assoc cache [A] := rfl
  refine ⟨?_, ?_, ?_⟩
  · intro st hst
    rw [hacc]
    exact (clear_spec assoc cache [A] (by simp) (A, st) hst).1
      (Reach.root (List.mem_singleton.mpr rfl))
  · intro B st hst hr
    rw [hacc]
    exact (clear_spec assoc cache [A] (by simp) (B, st) hst).1 hr
  · intro C st hst hr
    rw [hacc]
    exact (clear_spec assoc cache [A] (by simp) (C, st) hst).2 hr

/-- Concrete instance of C6: with A associated to B, an invalidating access
on A clears A's and B's caches and leaves the unrelated C untouched. -/
theorem c6_witness :
    ("A", ([] : Store)) ∈ accessUpdateMember true assocAB cacheABC "A"
    ∧ ("B", ([] : Store)) ∈ accessUpdateMember true assocAB cacheABC "A"
    ∧ ("C", [("hc", Entry.mk (.num 3) .never)]) ∈ accessUpdateMember true assocAB cacheABC "A" := by
  have hthm := c6_update_clears_closure_frame assocAB cacheABC "A"
  have hnr : ¬ Reach assocAB ["A"] "C" := by
    intro hr
    have := (closureList_mem_iff assocAB ["A"] "C").mpr hr
    revert this
    decide
  refine ⟨?_, ?_, ?_⟩
  · exact hthm.1 [("ha", ⟨.num 1, .never⟩)] (List.mem_cons_self _ _)
  · exact hthm.2.1 "B" [("hb", ⟨.num 2, .never⟩)]
      (List.mem_cons_of_mem _ (List.mem_cons_self _ _))
      (Reach.step (x := "A") (Reach.root (by decide)) (by decide))
  · exact hthm.2.2 "C" [("hc", ⟨.num 3, .never⟩)]
      (List.mem_cons_of_mem _ (List.mem_cons_of_mem _ (List.mem_cons_self _ _))) hnr

/-- Replacing the value at one key leaves lookups of other keys unchanged. -/
lemma find?_key_of_map_set {β : Type} (m : List (String × β)) (k k' : String) (v : β)
    (hne : k ≠ k') :
    (m.map (fun p => if p.1 == k then (k, v) else p)).find? (fun p => p.1 == k')
      = m.find? (fun p => p.1 == k') := by
  induction m with
  | nil => rfl
  | cons p rest ih =>
    rw [List.map_cons]
    by_cases hp : (p.1 == k) = true
    · have e1 : (if p.1 == k then (k, v) else p) = (k, v) := by simp [hp]
      rw [e1]
      have hp' : (p.1 == k') = false := by
        rw [eq_of_beq hp]
        simp [hne]
      rw [List.find?_cons_of_neg (p := fun p : String × β => p.1 == k') _ (by simp [hne]),
        List.find?_cons_of_neg (p := fun p : String × β => p.1 == k') _ (by simp [hp'])]
      exact ih
    · have e1 : (if p.1 == k then (k, v) else p) = p := by simp [hp]
      rw [e1]
      by_cases hq : (p.1 == k') = true
      · rw [List.find?_cons_of_pos (p := fun p : String × β => p.1 == k') _ hq,
          List.find?_cons_of_pos (p := fun p : String × β => p.1 == k') _ hq]
      · rw [List.find?_cons_of_neg (p := fun p : String × β => p.1 == k') _ hq,
          List.find?_cons_of_neg (p := fun p : String × β => p.1 == k') _ hq]
        exact ih

/-- `Map.set` at one key leaves `Map.get` of other keys unchanged. -/
lemma mapGet_mapSet_ne {β : Type} (m : List (String × β)) (k k' : String) (v : β)
    (hne : k ≠ k') : mapGet (mapSet m k v) k' = mapGet m k' := by
  unfold mapSet
  by_cases h : m.any (fun p => p.1 == k) = true
  · rw [if_pos h]
    unfold mapGet
    rw [find?_key_of_map_set m k k' v hne]
  · rw [if_neg h]
    unfold mapGet
    rw [List.find?_append]
    have hsing : ([(k, v)].find? (fun p => p.1 == k')) = none := by
      rw [List.find?_cons_of_neg (p := fun p : String × β => p.1 == k') _ (by simp [hne])]
      rfl
    rw [hsing, Option.or_none]

/-- Every entry of `mapSet m k v` carrying key `k` is the new entry. -/
lemma mapSet_entries_key {β : Type} (m : List (String × β)) (k : String) (v : β) :
    ∀ p ∈ mapSet m k v, (p.1 == k) = true → p = (k, v) := by
  intro p hp hpk
  unfold mapSet at hp
  by_cases h : m.any (fun q => q.1 == k) = true
  · rw [if_pos h] at hp
    obtain ⟨q, hq, hfq⟩ := List.mem_map.mp hp
    by_cases hqk : (q.1 == k) = true
    · rw [← hfq]
      simp [hqk]
    · have e1 : (if q.1 == k then (k, v) else q) = q := by simp [hqk]
      rw [e1] at hfq
      rw [← hfq] at hpk
      exact absurd hpk hqk
  · rw [if_neg h] at hp
    rcases List.mem_append.mp hp with h1 | h1
    · exact absurd (List.any_eq_true.mpr ⟨p, h1, hpk⟩) h
    · exact List.mem_singleton.mp h1

/-- An entry of `mapSet m b w` carrying a key other than `b` was already in
`m`. -/
lemma mapSet_mem_key_other {β : Type} (m : List (String × β)) (b k : String) (w : β)
    (hbk : b ≠ k) : ∀ p ∈ mapSet m b w, (p.1 == k) = true → p ∈ m := by
  intro p hp hpk
  unfold mapSet at hp
  by_cases h : m.any (fun q => q.1 == b) = true
  · rw [if_pos h] at hp
    obtain ⟨q, hq, hfq⟩ := List.mem_map.mp hp
    by_cases hqb : (q.1 == b) = true
    · exfalso
      have e1 : (if q.1 == b then (b, w) else q) = (b, w) := by simp [hqb]
      rw [e1] at hfq
      rw [← hfq] at hpk
      simp [hbk] at hpk
    · have e1 : (if q.1 == b then (b, w) else q) = q := by simp [hqb]
      rw [e1] at hfq
      rw [← hfq]
      exact hq
  · rw [if_neg h] at hp
    rcases List.mem_append.mp hp with h1 | h1
    · exact h1
    · exfalso
      have h2 := List.mem_singleton.mp h1
      rw [h2] at hpk
      simp [hbk] at hpk

/-- `Map.set` of the value already present everywhere at that key is a
no-op. -/
lemma mapSet_eq_self {β : Type} (m : List (String × β)) (k : String) (v : β)
    (hex : m.any (fun p => p.1 == k) = true)
    (hall : ∀ p ∈ m, (p.1 == k) = true → p = (k, v)) : mapSet m k v = m := by
  unfold mapSet
  rw [if_pos hex]
  have hpt : ∀ p ∈ m, (if p.1 == k then (k, v) else p) = p := by
    intro p hp
    by_cases hpk : (p.1 == k) = true
    · rw [if_pos hpk]
      exact (hall p hp hpk).symm
    · rw [if_neg hpk]
  exact (List.map_congr_left hpt).trans (List.map_id' m)

/-- A successful `Map.get` witnesses the key in the map. -/
lemma any_of_mapGet_some {β : Type} (m : List (String × β)) (k : String) (v : β)
    (h : mapGet m k = some v) : m.any (fun p => p.1 == k) = true := by
  unfold mapGet at h
  rcases hf : m.find? (fun p => p.1 == k) with _ | q
  · rw [hf] at h
    cases h
  · exact List.any_eq_true.mpr ⟨q, List.mem_of_find?_eq_some hf,
      List.find?_some (p := fun p : String × β => p.1 == k) hf⟩

/-- Unfolding of `addReverseStep` when the associated model has a list. -/
lemma addReverseStep_eq_some (name : String) (acc : AssocMap) (b : String)
    (cur : List String) (hg : mapGet acc b = some cur) :
    addReverseStep name acc b
      = if cur.contains name then acc else mapSet acc b (cur ++ [name]) := by
  unfold addReverseStep
  rw [hg]

/-- Unfolding of `addReverseStep` when the associated model has no list. -/
lemma addReverseStep_eq_none (name : String) (acc : AssocMap) (b : String)
    (hg : mapGet acc b = none) :
    addReverseStep name acc b = mapSet (mapSet acc b []) b ([] ++ [name]) := by
  unfold addReverseStep
  rw [hg]

/-- A reverse-association step for one model does not change other models'
lists. -/
lemma addReverseStep_get_other (name : String) (m : AssocMap) (b k : String)
    (hbk : b ≠ k) : mapGet (addReverseStep name m b) k = mapGet m k := by
  rcases hg : mapGet m b with _ | cur
  · rw [addReverseStep_eq_none name m b hg,
      mapGet_mapSet_ne (mapSet m b []) b k _ hbk, mapGet_mapSet_ne m b k _ hbk]
  · rw [addReverseStep_eq_some name m b cur hg]
    by_cases hc : cur.contains name = true
    · rw [if_pos hc]
    · rw [if_neg hc]
      exact mapGet_mapSet_ne m b k _ hbk

/-- After a reverse-association step for `b`, the declaring name is in `b`'s
list. -/
lemma addReverseStep_establishes (name : String) (m : AssocMap) (b : String) :
    ∃ l, mapGet (addReverseStep name m b) b = some l ∧ name ∈ l := by
  rcases hg : mapGet m b with _ | cur
  · rw [addReverseStep_eq_none name m b hg]
    refine ⟨[] ++ [name], mapGet_mapSet_self _ _ _, ?_⟩
    simp
  · rw [addReverseStep_eq_some name m b cur hg]
    by_cases hc : cur.contains name = true
    · rw [if_pos hc]
      exact ⟨cur, hg, (str_contains_iff _ _).mp hc⟩
    · rw [if_neg hc]
      exact ⟨cur ++ [name], mapGet_mapSet_self _ _ _, List.mem_append.mpr
        (Or.inr (List.mem_singleton.mpr rfl))⟩

/-- A reverse-association step preserves the presence of the declaring name
in any model's list. -/
lemma addReverseStep_preserves_mem (name : String) (m : AssocMap) (c b : String)
    (h : ∃ l, mapGet m b = some l ∧ name ∈ l) :
    ∃ l, mapGet (addReverseStep name m c) b = some l ∧ name ∈ l := by
  by_cases hcb : c = b
  · subst hcb
    obtain ⟨l, hg, hm⟩ := h
    rw [addReverseStep_eq_some name m c l hg,
      if_pos ((str_contains_iff _ _).mpr hm)]
    exact ⟨l, hg, hm⟩
  · obtain ⟨l, hg, hm⟩ := h
    exact ⟨l, by rw [addReverseStep_get_other name m c b hcb]; exact hg, hm⟩

/-- A reverse-association step for `b` keeps the declaring model's own list
and key-entries intact, provided a self-edge implies the name is among the
registered targets. -/
lemma addReverseStep_inv (name : String) (targets : List String) (m : AssocMap) (b : String)
    (hb : b = name → name ∈ targets)
    (hget : mapGet m name = some targets)
    (hent : ∀ p ∈ m, (p.1 == name) = true → p = (name, targets)) :
    mapGet (addReverseStep name m b) name = some targets
    ∧ ∀ p ∈ addReverseStep name m b, (p.1 == name) = true → p = (name, targets) := by
  by_cases hbn : b = name
  · subst hbn
    have hcont : targets.contains b = true := (str_contains_iff _ _).mpr (hb rfl)
    rw [addReverseStep_eq_some b m b targets hget, if_pos hcont]
    exact ⟨hget, hent⟩
  · constructor
    · rw [addReverseStep_get_other name m b name hbn]
      exact hget
    · intro p hp hpk
      rcases hg : mapGet m b with _ | cur
      · rw [addReverseStep_eq_none name m b hg] at hp
        have h1 := mapSet_mem_key_other (mapSet m b []) b name _ hbn p hp hpk
        have h2 := mapSet_mem_key_other m b name _ hbn p h1 hpk
        exact hent p h2 hpk
      · rw [addReverseStep_eq_some name m b cur hg] at hp
        by_cases hc : cur.contains name = true
        · rw [if_pos hc] at hp
          exact hent p hp hpk
        · rw [if_neg hc] at hp
          exact hent p (mapSet_mem_key_other m b name _ hbn p hp hpk) hpk

/-- The reverse-association fold keeps the declaring model's list equal to
the registered targets, keeps its key-entries canonical, and puts (and
keeps) the declaring name in the list of every processed model. -/
lemma addReverse_go (name : String) (targets : List String) : ∀ (ts : List String) (m : AssocMap),
    (∀ x ∈ ts, x ∈ targets) →
    mapGet m name = some targets →
    (∀ p ∈ m, (p.1 == name) = true → p = (name, targets)) →
    mapGet (addReverseAssociations m name ts) name = some targets
    ∧ (∀ p ∈ addReverseAssociations m name ts, (p.1 == name) = true → p = (name, targets))
    ∧ (∀ b, b ∈ ts ∨ (∃ l, mapGet m b = some l ∧ name ∈ l) →
        ∃ l, mapGet (addReverseAssociations m name ts) b = some l ∧ name ∈ l) := by
  intro ts
  induction ts with
  | nil =>
    intro m _ hget hent
    refine ⟨hget, hent, ?_⟩
    intro b hb
    rcases hb with hb | hb
    · cases hb
    · exact hb
  | cons c cs ih =>
    intro m hsub hget hent
    have hstep : addReverseAssociations m name (c :: cs)
        = addReverseAssociations (addReverseStep name m c) name cs := rfl
    rw [hstep]
    have hinv := addReverseStep_inv name targets m c
      (fun hc => hc ▸ hsub c (List.mem_cons_self _ _))
      hget hent
    obtain ⟨ih1, ih2, ih3⟩ := ih (addReverseStep name m c)
      (fun x hx => hsub x (List.mem_cons_of_mem _ hx)) hinv.1 hinv.2
    refine ⟨ih1, ih2, ?_⟩
    intro b hb
    rcases hb with hb | hb
    · rcases List.mem_cons.mp hb with h1 | h1
      · subst h1
        exact ih3 b (Or.inr (addReverseStep_establishes name m b))
      · exact ih3 b (Or.inl h1)
    · exact ih3 b (Or.inr (addReverseStep_preserves_mem name m c b hb))

/-- When every listed model already records the declaring name, the
reverse-association fold is a no-op. -/
lemma addReverse_noop (name : String) : ∀ (ts : List String) (m : AssocMap),
    (∀ b ∈ ts, ∃ l, mapGet m b = some l ∧ name ∈ l) →
    addReverseAssociations m name ts = m := by
  intro ts
  induction ts with
  | nil =>
    intro m _
    rfl
  | cons c cs ih =>
    intro m h
    obtain ⟨l, hg, hm⟩ := h c (List.mem_cons_self _ _)
    have hstep : addReverseAssociations m name (c :: cs)
        = addReverseAssociations (addReverseStep name m c) name cs := rfl
    have hnoop : addReverseStep name m c = m := by
      rw [addReverseStep_eq_some name m c l hg, if_pos ((str_contains_iff _ _).mpr hm)]
    rw [hstep, hnoop]
    exact ih m (fun b hb => h b (List.mem_cons_of_mem _ hb))

/-- C5 as stated is false: `_addAssociations` replaces the declaring model's
adjacency list wholesale, so after registering A→[B] and then B→[C], the
edge A↔B survives only on A's side — B's list has been overwritten to [C]
and no longer contains A. -/
theorem c5_counterexample :
    "B" ∈ (mapGet (registerAssociations (registerAssociations [] "A" ["B"]) "B" ["C"]) "A").getD []
    ∧ "A" ∉ (mapGet (registerAssociations (registerAssociations [] "A" ["B"]) "B" ["C"]) "B").getD []
    ∧ (mapGet (registerAssociations [] "A" ["B"]) "B").getD [] = ["A"]
    ∧ (mapGet (registerAssociations (registerAssociations [] "A" ["B"]) "B" ["C"]) "B").getD []
        = ["C"] := by
  decide

/-- C5 corrected: registration replaces the declaring model's adjacency list
and appends the declaring name to each associated model's list when absent.
Consequently (a) repeating the identical registration is a no-op
(idempotent), and (b) the edges of the most recent registration are
symmetric: each registered target appears in the declaring model's list and
the declaring model appears in each target's list. Symmetry of earlier
edges can be destroyed by a later registration of the same model with a
different list (see the counterexample). -/
theorem c5_amended_registration_idempotent_latest_symmetric :
    (∀ (m : AssocMap) (name : String) (targets : List String),
      registerAssociations (registerAssociations m name targets) name targets
        = registerAssociations m name targets)
    ∧ (∀ (m : AssocMap) (name : String) (targets : List String) (b : String), b ∈ targets →
        b ∈ (mapGet (registerAssociations m name targets) name).getD []
        ∧ name ∈ (mapGet (registerAssociations m name targets) b).getD []) := by
  have main : ∀ (m : AssocMap) (name : String) (targets : List String), targets ≠ [] →
      mapGet (registerAssociations m name targets) name = some targets
      ∧ (∀ p ∈ registerAssociations m name targets, (p.1 == name) = true → p = (name, targets))
      ∧ (∀ b ∈ targets, ∃ l,
          mapGet (registerAssociations m name targets) b = some l ∧ name ∈ l) := by
    intro m name targets hne
    have hempty : targets.isEmpty = false := by
      cases targets with
      | nil => exact absurd rfl hne
      | cons a l => rfl
    have hreg : registerAssociations m name targets
        = addReverseAssociations (mapSet m name targets) name targets := by
      unfold registerAssociations
      rw [hempty]
      rfl
    obtain ⟨g1, g2, g3⟩ := addReverse_go name targets targets (mapSet m name targets)
      (fun x hx => hx)
      (mapGet_mapSet_self m name targets)
      (mapSet_entries_key m name targets)
    rw [hreg]
    exact ⟨g1, g2, fun b hb => g3 b (Or.inl hb)⟩
  constructor
  · intro m name targets
    by_cases hne : targets = []
    · subst hne
      rfl
    · obtain ⟨g1, g2, g3⟩ := main m name targets hne
      have hempty : targets.isEmpty = false := by
        cases targets with
        | nil => exact absurd rfl hne
        | cons a l => rfl
      have hreg : ∀ x : AssocMap, registerAssociations x name targets
          = addReverseAssociations (mapSet x name targets) name targets := by
        intro x
        unfold registerAssociations
        rw [hempty]
        rfl
      have hsetself : mapSet (registerAssociations m name targets) name targets
          = registerAssociations m name targets :=
        mapSet_eq_self _ name targets (any_of_mapGet_some _ name targets g1) g2
      rw [hreg (registerAssociations m name targets), hsetself]
      exact addReverse_noop name targets (registerAssociations m name targets) g3
  · intro m name targets b hb
    have hne : targets ≠ [] := by
      intro h
      rw [h] at hb
      cases hb
    obtain ⟨g1, g2, g3⟩ := main m name targets hne
    constructor
    · rw [g1]
      exact hb
    · obtain ⟨l, hgl, hml⟩ := g3 b hb
      rw [hgl]
      exact hml

/-- Concrete instance of the corrected C5: re-registering A→[B] is a no-op,
and the registration A→[B] is symmetric. -/
theorem c5_witness :
    registerAssociations (registerAssociations [] "A" ["B"]) "A" ["B"]
      = registerAssociations [] "A" ["B"]
    ∧ "B" ∈ (mapGet (registerAssociations [] "A" ["B"]) "A").getD []
    ∧ "A" ∈ (mapGet (registerAssociations [] "A" ["B"]) "B").getD [] :=
  ⟨c5_amended_registration_idempotent_latest_symmetric.1 [] "A" ["B"],
   (c5_amended_registration_idempotent_latest_symmetric.2 [] "A" ["B"] "B"
     (List.mem_singleton.mpr rfl)).1,
   (c5_amended_registration_idempotent_latest_symmetric.2 [] "A" ["B"] "B"
     (List.mem_singleton.mpr rfl)).2⟩
